import Mathlib

/-
Verification of the ragcode incremental indexing core (src/ragcode/indexer.py,
src/ragcode/symbols.py) against its natural-language specification.

The Python code is shallowly embedded as executable Lean functions.  Python
dicts are modelled as association lists with dict semantics (first-position,
replace-on-assign, see insRep / toDict); Python truthiness of strings is
modelled by optTruthy / an empty-string check; the filesystem state that
build_index reads and writes (filemap.json, docstore.json, symbols.jsonl,
manifest.json) is the FS structure, each file modelled at the parsed level
with none standing for an absent (or unparseable, where the code treats the
two alike) file.

External collaborators (the SHA-256 hash, llama_index splitters and the
vector-store load, Path.resolve, the Python ast parse) are pure parameters
collected in the Collab structure: each parameter stands for the observed
result of the corresponding call in one run.  A splitter call that raises is
represented by the corresponding Option-valued parameter returning none,
which the orchestrator (faithfully to the try/except in build_index) turns
into the single fallback node and no symbol rows.  Index-store insert/delete
calls are recorded in the build result; the store itself is modelled as the
parsed docstore.json node list.
-/

set_option maxRecDepth 40000

namespace Ragcode

/-- Python truthiness for an optional string: None and the empty string are
falsy; a nonempty string is returned unchanged. -/
def optTruthy : Option String → Option String
  | some s => if s = "" then none else some s
  | none => none

/-- Models str.replace of backslash by slash. -/
def replaceBS (s : String) : String :=
  String.mk (s.toList.map (fun c => if c = '\\' then '/' else c))

/-- Index of the last dot in a list of characters, if any. -/
def lastDotIdx : List Char → Option Nat
  | [] => none
  | c :: cs =>
    match lastDotIdx cs with
    | some i => some (i + 1)
    | none => if c = '.' then some 0 else none

/-- Models pathlib suffix of a path string: the extension (with the dot) of
the final slash-separated component; empty when the last dot is at position
zero or at the very end of the name. -/
def pathSuffix (s : String) : String :=
  let cs := (s.toList.reverse.takeWhile (fun c => c ≠ '/')).reverse
  match lastDotIdx cs with
  | some i => if 0 < i ∧ i < cs.length - 1 then String.mk (cs.drop i) else ""
  | none => ""

/-- Dict lookup on an association list (first occurrence wins, as keys of a
Python dict are unique). -/
def alookup {β : Type} : List (String × β) → String → Option β
  | [], _ => none
  | (a, b) :: rest, q => if a = q then some b else alookup rest q

/-- Dict assignment: replace the value at an existing key in place, else
append the pair at the end (Python dicts keep first-insertion order). -/
def insRep {β : Type} : List (String × β) → String → β → List (String × β)
  | [], k, v => [(k, v)]
  | (a, b) :: rest, k, v =>
    if a = k then (k, v) :: rest else (a, b) :: insRep rest k v

/-- Keys of an association list. -/
def keysOf {β : Type} (m : List (String × β)) : List String := m.map Prod.fst

/-- The keys are pairwise distinct (always true of a Python dict). -/
def keysNodup {β : Type} (m : List (String × β)) : Prop := (keysOf m).Nodup

/-- Rebuild an association list with dict semantics (models building a dict
from a sequence of key/value assignments, e.g. json.loads of an object). -/
def toDict {β : Type} (l : List (String × β)) : List (String × β) :=
  l.foldl (fun m kv => insRep m kv.1 kv.2) []

/-- Keep-first deduplication, modelling conversion of a list to a set of
strings (Python set iteration order is unspecified; any fixed order is a
sound model for the order-insensitive uses in build_index). -/
def dedupStr : List String → List String
  | [] => []
  | x :: xs => x :: (dedupStr xs).filter (fun y => decide (y ≠ x))

/-- Insertion into a sorted list of strings. -/
def insertSorted (x : String) : List String → List String
  | [] => [x]
  | y :: ys => if x ≤ y then x :: y :: ys else y :: insertSorted x ys

/-- Insertion sort, modelling Python sorted() on strings. -/
def sortStrings (l : List String) : List String := l.foldr insertSorted []

/-- One derived node (chunk), at the level build_index observes it: its
identifier (node_id or id underscore, None when absent) and the metadata keys
the orchestrator reads. -/
structure Node where
  id : Option String
  canonical_path : Option String
  file_ext : Option String
  file_path : Option String
  text : String
deriving DecidableEq, Repr

/-- One source document as produced by a loader, before the orchestrator
normalizes its metadata.  docId models the always-present llama document id
(used as a file-path fallback). -/
structure Doc where
  canonical_path : Option String
  file_path : Option String
  file_ext : Option String
  repo : Option String
  text : String
  docId : String
deriving DecidableEq, Repr

/-- One FileEntry of the fingerprint tracker (filemap.json): the recorded
content hash ("" models both the empty sentinel and an absent hash key, which
the code treats alike through falsiness) and the owned node ids. -/
structure FileEntry where
  hash : String
  node_ids : List String
deriving DecidableEq, Repr

/-- The fingerprint tracker document (filemap.json) at the parsed level. -/
structure Filemap where
  version : Nat
  source : Option String
  files : List (String × FileEntry)
deriving DecidableEq, Repr

/-- One node record as found in the persisted docstore.json, reduced to the
fields _read_docstore_nodes extracts. -/
structure DsRawNode where
  id : Option String
  canonical_path : Option String
  file_path : Option String
deriving DecidableEq, Repr

/-- One row of the symbol sidecar (symbols.jsonl).  Rows written by
extract_python_symbols never carry a canonical_path key; none models an
absent key. -/
structure Row where
  canonical_path : Option String
  file_path : Option String
  symbol : String
  kind : String
  start_line : Option Nat
  end_line : Option Nat
  language : String
deriving DecidableEq, Repr

/-- Manifest counts (manifest.json), reduced to the count fields the claims
are about. -/
structure ManifestM where
  documents : Nat
  nodes : Nat
  symbols : Nat
deriving DecidableEq, Repr

/-- The persisted state under the persist directory, at the parsed level.
none = the file is absent (or unparseable, where the reading code treats the
two alike). -/
structure FS where
  filemap : Option Filemap
  docstore : Option (List DsRawNode)
  sidecar : Option (List Row)
  manifest : Option ManifestM
deriving DecidableEq, Repr

/-- The profile fields build_index and the loaders consult. -/
structure ProfileM where
  path : Option String
  repo : Option String
  ref : String
  includeDirs : List String
  ext : List String
  maxFileSizeKb : Nat
deriving DecidableEq, Repr

/-- One Python definition found by walking the ast of a module: name, whether
it is a ClassDef, and the lineno / end_lineno attributes (end_lineno none
models the attribute being absent, in which case the code falls back to
lineno). -/
structure PySym where
  name : String
  isClass : Bool
  lineno : Option Nat
  endLineno : Option Nat
deriving DecidableEq, Repr

/-- The external collaborators of one build run, as pure functions: each
stands for the observed result of the corresponding call.  codeSplit /
sentSplit returning none models the splitter call raising (build_index then
substitutes the single fallback node). -/
structure Collab where
  hash : String → String
  resolve : String → String
  canonLocal : String → String
  useCode : Bool
  codeSplit : Doc → Option (List Node)
  sentSplit : Doc → Option (List Node)
  fallbackNode : Doc → Node
  pyAst : String → Option (List PySym)
  loadOk : Bool

/-- Which path through build_index a run took. -/
inductive Branch where
  | err
  | noop
  | fresh
  | incr
deriving DecidableEq, Repr

/-- The outcome of one modelled build_index run: the persisted state, the
branch taken, the diff classification, and the index-store traffic
(delete_nodes ids and call count, insert_nodes nodes and call count, and the
node set a fresh VectorStoreIndex was created from). -/
structure BuildResult where
  fs : FS
  branch : Branch
  added : List String
  modified : List String
  removed : List String
  deletes : List String
  deleteCalls : Nat
  insertCalls : Nat
  insertedNodes : List Node
  freshNodes : List Node
  freshRows : List Row
  manifest : Option ManifestM
deriving Repr

/-- extract_python_symbols (symbols.py): parse the module (pyAst models the
result of ast.parse plus ast.walk; none = a parse error, caught and yielding
no rows), then one row per function/class definition.  Rows carry file_path
equal to the path argument and no canonical_path key. -/
def extractPythonSymbols (pyAst : String → Option (List PySym)) (path : String)
    (text : String) : List Row :=
  match pyAst text with
  | none => []
  | some ds =>
    ds.map (fun s =>
      { canonical_path := none, file_path := some path, symbol := s.name,
        kind := if s.isClass then "class" else "function",
        start_line := s.lineno,
        end_line := match s.endLineno with | some e => some e | none => s.lineno,
        language := "python" })

/-- Slash-join of relative directory parts with a file name. -/
def joinParts (parts : List String) (name : String) : String :=
  String.intercalate "/" (parts ++ [name])

/-- One regular file as seen by os.walk in _load_from_local: its name, its
on-disk size in bytes, and the text read from it. -/
structure LocalFile where
  name : String
  size : Nat
  text : String
deriving DecidableEq, Repr

/-- The Document built for one kept local file.  The resolved base and file
paths are modelled as slash-joins (the symlink-free case), so the canonical
path is the relative slash path and file_path the absolute one. -/
def localDocOf (base : String) (parts : List String) (f : LocalFile) : Doc :=
  { canonical_path := some (joinParts parts f.name),
    file_path := some (base ++ "/" ++ joinParts parts f.name),
    file_ext := some (pathSuffix f.name),
    repo := some "local",
    text := f.text,
    docId := "" }

/-- The files kept from one os.walk root in _load_from_local: suffix must be
in profile.ext and the size must not exceed max_file_size_kb kilobytes. -/
def localRootDocs (P : ProfileM) (base : String) (parts : List String)
    (files : List LocalFile) : List Doc :=
  files.filterMap (fun f =>
    if pathSuffix f.name ∉ P.ext then none
    else if f.size > P.maxFileSizeKb * 1024 then none
    else some (localDocOf base parts f))

/-- _load_from_local (indexer.py lines 79-105): walk the tree (given as the
os.walk listing: relative root parts with the regular files under that root),
skip roots whose first component is not an included directory, and keep files
by extension and size ceiling. -/
def loadFromLocal (P : ProfileM) (base : String)
    (tree : List (List String × List LocalFile)) : List Doc :=
  (tree.map (fun rt =>
    match rt.1 with
    | [] => localRootDocs P base rt.1 rt.2
    | p :: _ => if p ∉ P.includeDirs then [] else localRootDocs P base rt.1 rt.2)).flatten

/-- _load_from_github (indexer.py lines 57-77): the documents returned by the
external GithubRepositoryReader (which filters by directory and extension
only), with file_path defaulted to the document id and canonical_path /
file_ext / repo metadata stamped from it.  No size ceiling is applied on this
path. -/
def loadFromGithub (P : ProfileM) (readerDocs : List Doc) : List Doc :=
  readerDocs.map (fun d =>
    { d with
      file_path := match d.file_path with | some fp => some fp | none => some d.docId,
      canonical_path := some (replaceBS d.docId),
      file_ext := some (pathSuffix d.docId),
      repo := match d.repo with
        | some r => some r
        | none => some ((optTruthy P.repo).getD "github") })

/-- The canonical path of a document whose metadata has been ensured (lines
230-242 of build_index guarantee presence). -/
def canonOf (d : Doc) : String := d.canonical_path.getD ""

/-- Metadata normalization in build_index (lines 230-238): ensure
canonical_path (for a local source _canon_for_local of the file path, else
the backslash-normalized file path, the document id standing in for a
missing or falsy file_path) and file_ext (suffix of the canonical path when
absent or falsy). -/
def normalizeDoc (C : Collab) (isLoc : Bool) (d : Doc) : Doc :=
  let cp : String :=
    match d.canonical_path with
    | some c => c
    | none =>
      let fp :=
        match optTruthy d.file_path with
        | some s => s
        | none => d.docId
      if isLoc then C.canonLocal fp else replaceBS fp
  let fe : String :=
    match optTruthy d.file_ext with
    | some e => e
    | none => pathSuffix cp
  { d with canonical_path := some cp, file_ext := some fe }

/-- The cur_files dict of build_index (lines 228-242), over the normalized
documents: canonical path to (content hash, document); a later document with
the same canonical path overwrites the value. -/
def curAux (C : Collab) :
    List (String × (String × Doc)) → List Doc → List (String × (String × Doc))
  | m, [] => m
  | m, d :: ds => curAux C (insRep m (canonOf d) (C.hash d.text, d)) ds

def curOf (C : Collab) (docs : List Doc) : List (String × (String × Doc)) :=
  curAux C [] docs

/-- current_hashes_by_canon. -/
def curHashesOf (cur : List (String × (String × Doc))) : List (String × String) :=
  cur.map (fun kv => (kv.1, kv.2.1))

/-- _source_fingerprint (indexer.py lines 139-144). -/
def desiredOf (C : Collab) (P : ProfileM) : String :=
  match optTruthy P.path with
  | some p => "local:" ++ C.resolve p
  | none =>
    match optTruthy P.repo with
    | some r => "github:" ++ r ++ "@" ++ P.ref
    | none => "unknown"

/-- The source selection at the top of build_index (lines 216-225): a truthy
profile.path selects the local loader, else a truthy profile.repo the github
loader, else the run raises.  Returns the chosen raw documents and whether
the source is local. -/
def chooseDocs (P : ProfileM) (ldocs gdocs : List Doc) : Option (List Doc × Bool) :=
  match optTruthy P.path with
  | some _ => some (ldocs, true)
  | none =>
    match optTruthy P.repo with
    | some _ => some (gdocs, false)
    | none => none

/-- Handling of a changed source identity (lines 247-249): a truthy previous
source differing from the desired one forces incremental off. -/
def decideIncr (fm0 : Filemap) (desired : String) (incr : Bool) : Bool :=
  match optTruthy fm0.source with
  | some s => if s ≠ desired then false else incr
  | none => incr

/-- _load_filemap (lines 113-124): an absent or unparseable filemap.json
yields the empty default state; a parsed one is the stored object, its files
object read with dict semantics. -/
def loadFilemap : Option Filemap → Filemap
  | none => { version := 1, source := none, files := [] }
  | some fm => { version := fm.version, source := fm.source, files := toDict fm.files }

/-- The canonical path _read_docstore_nodes computes for one stored node:
canonical_path, else file_path, else the empty string, each taken truthily,
then backslash-normalized. -/
def dsCanon (n : DsRawNode) : String :=
  replaceBS ((optTruthy n.canonical_path).getD ((optTruthy n.file_path).getD ""))

/-- defaultdict(list) bucket append. -/
def bucketsAdd : List (String × List String) → String → String → List (String × List String)
  | [], cp, nid => [(cp, [nid])]
  | (a, b) :: rest, cp, nid =>
    if a = cp then (a, b ++ [nid]) :: rest else (a, b) :: bucketsAdd rest cp nid

/-- The bucket-building loop of _bootstrap_filemap_if_missing (lines
176-181): nodes without a truthy canonical path or truthy id are skipped. -/
def bucketsAux :
    List (String × List String) → List DsRawNode → List (String × List String)
  | b, [] => b
  | b, n :: ns =>
    match optTruthy n.id with
    | some nid =>
      if dsCanon n ≠ "" then bucketsAux (bucketsAdd b (dsCanon n) nid) ns
      else bucketsAux b ns
    | none => bucketsAux b ns

/-- _bootstrap_filemap_if_missing (lines 170-189): when the tracker has no
files but the docstore holds nodes, group the docstore nodes by canonical
path, give each reconstructed entry the current content hash when known and
the empty sentinel otherwise, save the rebuilt tracker and return it.  Only
filemap.json is written. -/
def bootstrapFilemap (fs : FS) (fm : Filemap) (curH : List (String × String)) :
    Filemap × FS :=
  if fm.files ≠ [] then (fm, fs)
  else
    match fs.docstore with
    | none => (fm, fs)
    | some ns =>
      if ns = [] then (fm, fs)
      else
        let buckets := bucketsAux [] ns
        if buckets = [] then (fm, fs)
        else
          let boot : Filemap :=
            { version := 1, source := fm.source,
              files := buckets.map (fun kv =>
                (kv.1, { hash := (alookup curH kv.1).getD "", node_ids := kv.2 })) }
          (boot, { fs with filemap := some boot })

/-- _get_node_id followed by the truthiness check at its use sites: the node
id when present and nonempty. -/
def nodeIdOf (n : Node) : Option String := optTruthy n.id

/-- _force_node_meta (lines 191-202): copy canonical_path and file_ext from
the document metadata onto the node when the node lacks the key. -/
def forceMeta (d : Doc) (n : Node) : Node :=
  { n with
    canonical_path := match n.canonical_path with
      | some c => some c
      | none => d.canonical_path
    file_ext := match n.file_ext with
      | some e => some e
      | none => d.file_ext }

/-- Splitting one document (the shared logic of the fresh and incremental
branches, lines 312-327 and 377-402): a .py document under a working
tree-sitter goes through the code splitter and the symbol extractor, which
receives the file_path metadata value (a missing file_path key raises after
the nodes were computed, so the except branch replaces them with the single
fallback node and no rows are kept); any other document goes through the
sentence splitter; a raising splitter likewise yields the fallback node.
Every resulting node gets canonical metadata forced onto it. -/
def splitResult (C : Collab) (d : Doc) : List Node × List Row :=
  if C.useCode ∧ d.file_ext = some ".py" then
    match C.codeSplit d with
    | some nodes =>
      match d.file_path with
      | some fp => (nodes.map (forceMeta d), extractPythonSymbols C.pyAst fp d.text)
      | none => ([forceMeta d (C.fallbackNode d)], [])
    | none => ([forceMeta d (C.fallbackNode d)], [])
  else
    match C.sentSplit d with
    | some nodes => (nodes.map (forceMeta d), [])
    | none => ([forceMeta d (C.fallbackNode d)], [])

/-- The fresh-build split loop (lines 310-327): all nodes and all symbol
rows over the document list, in order. -/
def freshSplit (C : Collab) : List Doc → List Node × List Row
  | [] => ([], [])
  | d :: ds =>
    let nr := splitResult C d
    let rest := freshSplit C ds
    (nr.1 ++ rest.1, nr.2 ++ rest.2)

/-- files.setdefault(cp, fresh entry with the given hash) followed by a
conditional node-id append (lines 340-342). -/
def bucketAdd : List (String × FileEntry) → String → String → Option String →
    List (String × FileEntry)
  | [], cp, h, nid => [(cp, { hash := h, node_ids := nid.toList })]
  | (a, e) :: rest, cp, h, nid =>
    if a = cp then (a, { e with node_ids := e.node_ids ++ nid.toList }) :: rest
    else (a, e) :: bucketAdd rest cp h nid

/-- The bucket key of one node in the fresh filemap assembly (line 336):
truthy canonical_path, else truthy file_path; none means the node is skipped
(line 337). -/
def bucketKey (n : Node) : Option String :=
  match optTruthy n.canonical_path with
  | some c => some c
  | none => optTruthy n.file_path

/-- cur_files.get(cp, empty).get("hash", "") (line 340). -/
def hashAt (cur : List (String × (String × Doc))) (cp : String) : String :=
  match alookup cur cp with
  | some hv => hv.1
  | none => ""

/-- The fresh filemap files assembly (lines 333-342). -/
def freshFilesAux (cur : List (String × (String × Doc))) :
    List (String × FileEntry) → List Node → List (String × FileEntry)
  | m, [] => m
  | m, n :: ns =>
    match bucketKey n with
    | none => freshFilesAux cur m ns
    | some cp => freshFilesAux cur (bucketAdd m cp (hashAt cur cp) (nodeIdOf n)) ns

def freshFiles (cur : List (String × (String × Doc))) (ns : List Node) :
    List (String × FileEntry) :=
  freshFilesAux cur [] ns

/-- The docstore record persisted for one node inserted into the store. -/
def toDs (n : Node) : DsRawNode :=
  { id := n.id, canonical_path := n.canonical_path, file_path := n.file_path }

/-- r.get("canonical_path", r.get("file_path")): the key a sidecar row is
matched under in the incremental sync (lines 419-423). -/
def rowKey (r : Row) : Option String :=
  match r.canonical_path with
  | some c => some c
  | none => r.file_path

/-- Number of persisted sidecar rows (lines of symbols.jsonl; 0 when the
file is absent). -/
def scLen : Option (List Row) → Nat
  | some rows => rows.length
  | none => 0

/-- Sum of node_ids lengths across a files map. -/
def sumIds (files : List (String × FileEntry)) : Nat :=
  (files.map (fun kv => kv.2.node_ids.length)).sum

/-- The diff classification (lines 262-269): added / removed by key sets,
modified by a differing hash among common keys. -/
def diffOf (cur : List (String × (String × Doc)))
    (prevFiles : List (String × FileEntry)) :
    List String × List String × List String :=
  let prevKeys := keysOf prevFiles
  let currKeys := keysOf cur
  let added := currKeys.filter (fun p => decide (p ∉ prevKeys))
  let removed := prevKeys.filter (fun p => decide (p ∉ currKeys))
  let modified := currKeys.filter (fun p =>
    decide (p ∈ prevKeys) &&
      decide ((alookup cur p).map Prod.fst ≠ (alookup prevFiles p).map FileEntry.hash))
  (added, modified, removed)

/-- The tracker rewrite on the no-change path (lines 288-293): stamp the
desired source identity and back-fill entries whose hash is falsy from the
current hashes. -/
def noopUpdate (desired : String) (curH : List (String × String)) (fm : Filemap) :
    Filemap :=
  { version := fm.version, source := some desired,
    files := fm.files.map (fun kv =>
      if kv.2.hash = "" ∧ (alookup curH kv.1).isSome then
        (kv.1, { kv.2 with hash := (alookup curH kv.1).getD "" })
      else kv) }

/-- The no-change path (lines 270-294): counts from the existing tracker and
sidecar, manifest written, then the tracker rewritten and saved. -/
def noopResult (docsLen : Nat) (desired : String) (curH : List (String × String))
    (fm1 : Filemap) (fs1 : FS) : BuildResult :=
  let M : ManifestM :=
    { documents := docsLen, nodes := sumIds fm1.files, symbols := scLen fs1.sidecar }
  let fm2 := noopUpdate desired curH fm1
  { fs := { fs1 with manifest := some M, filemap := some fm2 },
    branch := Branch.noop, added := [], modified := [], removed := [],
    deletes := [], deleteCalls := 0, insertCalls := 0,
    insertedNodes := [], freshNodes := [], freshRows := [], manifest := some M }

/-- The full-rebuild branch (lines 306-351 plus the final manifest): split
every document, create the index store fresh from all nodes, build the
filemap from node metadata, write the sidecar only when rows were extracted
(a pre-existing sidecar file is left in place otherwise), and take the
manifest counts from the in-memory lists. -/
def freshResult (C : Collab) (docs : List Doc)
    (cur : List (String × (String × Doc))) (desired : String) (fs1 : FS)
    (a m rm : List String) : BuildResult :=
  let nr := freshSplit C docs
  let files := freshFiles cur nr.1
  let fm : Filemap := { version := 1, source := some desired, files := files }
  let sc := if nr.2 = [] then fs1.sidecar else some nr.2
  let M : ManifestM :=
    { documents := docs.length, nodes := nr.1.length, symbols := nr.2.length }
  { fs := { filemap := some fm, docstore := some (nr.1.map toDs), sidecar := sc,
            manifest := some M },
    branch := Branch.fresh, added := a, modified := m, removed := rm,
    deletes := [], deleteCalls := 0, insertCalls := 0,
    insertedNodes := [], freshNodes := nr.1, freshRows := nr.2, manifest := some M }

/-- The incremental split-and-insert loop over sorted(added | modified)
(lines 377-403): concatenated inserted nodes, new symbol rows, and the
updated_entries dict.  A path absent from cur_files is skipped (unreachable:
the processed paths are always current). -/
def incrLoop (C : Collab) (cur : List (String × (String × Doc))) :
    List String → List Node × List Row × List (String × FileEntry)
  | [] => ([], [], [])
  | p :: ps =>
    match alookup cur p with
    | none => incrLoop C cur ps
    | some hd =>
      let nr := splitResult C hd.2
      let rest := incrLoop C cur ps
      (nr.1 ++ rest.1, nr.2 ++ rest.2.1,
        (p, { hash := hd.1, node_ids := nr.1.filterMap nodeIdOf }) :: rest.2.2)

/-- The incremental branch (lines 354-441 plus the final manifest): delete
the node ids recorded for removed and modified paths, split and insert the
added and modified paths, assemble the new tracker from the kept previous
entries plus the updated ones, sync the sidecar by key filtering plus
appending, and derive the manifest counts from the new tracker and the
persisted sidecar. -/
def incrResult (C : Collab) (cur : List (String × (String × Doc)))
    (docsLen : Nat) (desired : String) (fm1 : Filemap) (fs1 : FS)
    (a m rm : List String) : BuildResult :=
  let toDel := ((dedupStr (rm ++ m)).map (fun p =>
    match alookup fm1.files p with
    | some e => e.node_ids
    | none => [])).flatten
  let delCalls := if toDel = [] then 0 else 1
  let proc := sortStrings (dedupStr (a ++ m))
  let lp := incrLoop C cur proc
  let insNodes := lp.1
  let newRows := lp.2.1
  let updated := lp.2.2
  let kept := fm1.files.filter (fun kv => decide (kv.1 ∉ rm) && decide (kv.1 ∉ m))
  let files := updated.foldl (fun acc kv => insRep acc kv.1 kv.2) kept
  let fm : Filemap := { version := 1, source := some desired, files := files }
  let existing :=
    match fs1.sidecar with
    | some rows => rows.filter (fun r =>
        match rowKey r with
        | some k => decide (k ∉ m) && decide (k ∉ rm)
        | none => true)
    | none => []
  let existing2 := existing ++ newRows
  let sc := if existing2 = [] then none else some existing2
  let ds := ((fs1.docstore.getD []).filter (fun n =>
      match n.id with
      | some i => decide (i ∉ toDel)
      | none => true)) ++ insNodes.map toDs
  let M : ManifestM := { documents := docsLen, nodes := sumIds files, symbols := scLen sc }
  { fs := { filemap := some fm, docstore := some ds, sidecar := sc, manifest := some M },
    branch := Branch.incr, added := a, modified := m, removed := rm,
    deletes := toDel, deleteCalls := delCalls, insertCalls := proc.length,
    insertedNodes := insNodes, freshNodes := [], freshRows := [], manifest := some M }

/-- The fatal no-source path (line 225): the RuntimeError is raised before
any file under the persist directory is read or written. -/
def errResult (fs : FS) : BuildResult :=
  { fs := fs, branch := Branch.err, added := [], modified := [], removed := [],
    deletes := [], deleteCalls := 0, insertCalls := 0,
    insertedNodes := [], freshNodes := [], freshRows := [], manifest := none }

/-- The tracker and filesystem state after the bootstrap step (lines
251-253): the bootstrap runs when the run is incremental, docstore.json
exists and the loaded tracker has no files. -/
def effState (C : Collab) (docs : List Doc) (incr1 : Bool) (fs : FS) :
    Filemap × FS :=
  if incr1 ∧ fs.docstore.isSome ∧ (loadFilemap fs.filemap).files = [] then
    bootstrapFilemap fs (loadFilemap fs.filemap) (curHashesOf (curOf C docs))
  else (loadFilemap fs.filemap, fs)

/-- The diff classification step (lines 257-298): the diff is computed when
the run is incremental and docstore.json exists; otherwise every current
path is added, nothing is modified, and the previous keys are the removed
set (unused by the fresh branch). -/
def diffState (C : Collab) (docs : List Doc) (incr1 : Bool) (fs : FS) :
    List String × List String × List String :=
  if incr1 ∧ fs.docstore.isSome then
    diffOf (curOf C docs) (effState C docs incr1 fs).1.files
  else (keysOf (curOf C docs), [], keysOf (effState C docs incr1 fs).1.files)

/-- build_index (indexer.py lines 206-455): the whole orchestrator state
machine over the modelled persisted state.  ldocs / gdocs are the documents
the local or the github loader would return for this run; lines 216-225
select between them or raise. -/
def buildIndex (C : Collab) (P : ProfileM) (ldocs gdocs : List Doc)
    (incremental : Bool) (fs : FS) : BuildResult :=
  match chooseDocs P ldocs gdocs with
  | none => errResult fs
  | some dl =>
    let docs := dl.1.map (normalizeDoc C dl.2)
    let desired := desiredOf C P
    let incr1 := decideIncr (loadFilemap fs.filemap) desired incremental
    let es := effState C docs incr1 fs
    let dmr := diffState C docs incr1 fs
    if incr1 ∧ fs.docstore.isSome ∧ dmr.1 = [] ∧ dmr.2.1 = [] ∧ dmr.2.2 = [] then
      noopResult docs.length desired (curHashesOf (curOf C docs)) es.1 es.2
    else if fs.docstore.isSome ∧ incr1 ∧ C.loadOk then
      incrResult C (curOf C docs) docs.length desired es.1 es.2 dmr.1 dmr.2.1 dmr.2.2
    else
      freshResult C docs (curOf C docs) desired es.2 dmr.1 dmr.2.1 dmr.2.2

/-- A primitive file event, at the granularity relevant to atomicity:
opening a file for writing truncates it, a write stores the full content,
closing changes nothing. -/
inductive FsEvent where
  | openTrunc : String → FsEvent
  | writeAll : String → String → FsEvent
  | closeF : String → FsEvent
deriving DecidableEq, Repr

/-- _save_filemap (indexer.py lines 126-127): a single in-place write_text
of filemap.json, which opens the target with truncation and then writes the
serialized tracker; there is no temporary file and no rename event. -/
def saveFilemapEvents (content : String) : List FsEvent :=
  [FsEvent.openTrunc "filemap.json", FsEvent.writeAll "filemap.json" content,
   FsEvent.closeF "filemap.json"]

def applyFsEvent (file : String) (st : String) : FsEvent → String
  | FsEvent.openTrunc p => if p = file then "" else st
  | FsEvent.writeAll p c => if p = file then c else st
  | FsEvent.closeF _ => st

/-- The contents of the given file observable at every interruption point
while an event list runs: before the first event and after each event. -/
def observableStates (file : String) (st : String) : List FsEvent → List String
  | [] => [st]
  | e :: es => st :: observableStates file (applyFsEvent file st e) es

/-! Concrete fixtures used by counterexamples and witnesses. -/

/-- A splitter node with the given id and no metadata of its own. -/
def testNode (i : String) : Node :=
  { id := some i, canonical_path := none, file_ext := none, file_path := none,
    text := "" }

/-- A concrete collaborator instance: an injective marker hash, identity
path resolution, a sentence splitter producing one node per document. -/
def collabT : Collab :=
  { hash := fun s => "#" ++ s
    resolve := fun s => s
    canonLocal := fun s => s
    useCode := false
    codeSplit := fun _ => some []
    sentSplit := fun d => some [testNode ("n-" ++ canonOf d)]
    fallbackNode := fun d => testNode ("fb-" ++ canonOf d)
    pyAst := fun _ => none
    loadOk := true }

/-- A concrete local profile. -/
def profT : ProfileM :=
  { path := some "/repo", repo := none, ref := "master",
    includeDirs := ["src"], ext := [".py", ".txt"], maxFileSizeKb := 1 }

/-- A concrete corpus tree: a root file, two files under src (one oversized),
and a file under a non-included directory. -/
def treeT : List (List String × List LocalFile) :=
  [([], [{ name := "top.txt", size := 10, text := "hello" }]),
   (["src"], [{ name := "a.txt", size := 10, text := "alpha" },
              { name := "big.txt", size := 2000, text := "huge" }]),
   (["docs"], [{ name := "d.txt", size := 5, text := "doc" }])]

def ldocsT : List Doc := loadFromLocal profT "/repo" treeT

/-- An ast oracle seeing one top-level function definition. -/
def pyAstT : String → Option (List PySym) := fun _ =>
  some [{ name := "f", isClass := false, lineno := some 1, endLineno := some 1 }]

/-- The sidecar row a full local build would have written for src/b.py: its
file_path is the absolute resolved path and it has no canonical_path key. -/
def rowB : Row :=
  { canonical_path := none, file_path := some "/repo/src/b.py", symbol := "f",
    kind := "function", start_line := some 1, end_line := some 1,
    language := "python" }

/-- Collaborators for the sidecar scenario: tree-sitter available, a code
splitter producing one node per document, the one-function ast oracle. -/
def collabC2 : Collab :=
  { collabT with
    useCode := true, pyAst := pyAstT,
    codeSplit := fun d => some [testNode ("c-" ++ canonOf d)] }

/-- Persisted state after a successful local build of a.txt and src/b.py:
tracker with both paths, docstore with their nodes, sidecar with the row
extracted from src/b.py (keyed by absolute path, as written). -/
def fsC2 : FS :=
  { filemap := some { version := 1, source := some "local:/repo",
                      files := [("src/a.txt", { hash := "#alpha", node_ids := ["na"] }),
                                ("src/b.py", { hash := "#bpy", node_ids := ["nb"] })] },
    docstore := some [{ id := some "na", canonical_path := some "src/a.txt", file_path := none },
                      { id := some "nb", canonical_path := some "src/b.py", file_path := none }],
    sidecar := some [rowB],
    manifest := none }

/-- The corpus for the sidecar scenario: src/b.py has been deleted. -/
def treeC2 : List (List String × List LocalFile) :=
  [(["src"], [{ name := "a.txt", size := 10, text := "alpha" }])]

def ldocsC2 : List Doc := loadFromLocal profT "/repo" treeC2

/-- Persisted state recorded under a different source identity than the one
the current run computes, with overlapping paths and hashes. -/
def fsC6 : FS :=
  { filemap := some { version := 1, source := some "local:/other",
                      files := [("src/a.txt", { hash := "#alpha", node_ids := ["na"] })] },
    docstore := some [{ id := some "na", canonical_path := some "src/a.txt", file_path := none }],
    sidecar := none, manifest := none }

/-- Persisted state whose tracker matches the current corpus exactly but
whose docstore.json is absent. -/
def fsC10 : FS :=
  { filemap := some { version := 1, source := some "local:/repo",
                      files := [("src/a.txt", { hash := "#alpha", node_ids := ["na"] })] },
    docstore := none, sidecar := none, manifest := none }

/-- The normalized document list of the chosen source. -/
def normChosen (C : Collab) (dl : List Doc × Bool) : List Doc :=
  dl.1.map (normalizeDoc C dl.2)

/-- The node ids the bootstrap bucket of path q collects from a docstore
node list, in order: the truthy ids of the nodes whose computed canonical
path is q. -/
def dsContrib (ns : List DsRawNode) (q : String) : List String :=
  (ns.filter (fun n => decide (dsCanon n = q))).filterMap (fun n => optTruthy n.id)

/-- The union (with multiplicity) of node_ids across all FileEntry values
of a files map, in order. -/
def flattenIds (files : List (String × FileEntry)) : List String :=
  (files.map (fun kv => kv.2.node_ids)).flatten

/-- The node ids a run contributed to its tracker from freshly split nodes:
the truthy ids of the fresh-path nodes carrying a usable path key plus the
truthy ids of the incrementally inserted nodes. -/
def contribIds (r : BuildResult) : List String :=
  (r.freshNodes.filter (fun n => decide (bucketKey n ≠ none))).filterMap nodeIdOf
    ++ r.insertedNodes.filterMap nodeIdOf

/-- An empty tracker next to a populated docstore (the bootstrap scenario). -/
def fmC8 : Filemap := { version := 1, source := some "local:/repo", files := [] }

def nsC8 : List DsRawNode :=
  [{ id := some "n1", canonical_path := some "x.py", file_path := none },
   { id := some "n2", canonical_path := some "y.py", file_path := none },
   { id := some "n3", canonical_path := some "x.py", file_path := none }]

def fsC8 : FS :=
  { filemap := some fmC8, docstore := some nsC8, sidecar := none, manifest := none }

def curHC8 : List (String × String) := [("x.py", "#x")]

/-- A text whose byte size exceeds a 1 kB ceiling. -/
def bigText : String := String.mk (List.replicate 1025 'a')

/-- A raw document as the github reader returns it, holding the oversized
text; its id is the repository-relative path. -/
def bigRawDoc : Doc :=
  { canonical_path := none, file_path := none, file_ext := none, repo := none,
    text := bigText, docId := "big.py" }

/-- A github profile with a 1 kB size ceiling configured. -/
def profG : ProfileM :=
  { path := none, repo := some "owner/repo", ref := "main",
    includeDirs := ["src"], ext := [".py"], maxFileSizeKb := 1 }

/-- An empty persist directory. -/
def fsEmpty : FS :=
  { filemap := none, docstore := none, sidecar := none, manifest := none }

/-- The files map the bootstrap reconstructs from a docstore node list. -/
def bootFilesOf (ns : List DsRawNode) (curH : List (String × String)) :
    List (String × FileEntry) :=
  (bucketsAux [] ns).map (fun kv =>
    (kv.1, { hash := (alookup curH kv.1).getD "", node_ids := kv.2 }))

/-- The tracker the bootstrap reconstructs. -/
def bootMapOf (fm : Filemap) (ns : List DsRawNode)
    (curH : List (String × String)) : Filemap :=
  { version := 1, source := fm.source, files := bootFilesOf ns curH }

/-- A collaborator whose sentence splitter returns zero nodes for every
document, which the splitter contract allows: the run keeps the empty list
(the fallback node only replaces a raising splitter). -/
def collabC4 : Collab :=
  { collabT with sentSplit := fun _ => some [] }

/-- A persisted tracker that matches the current corpus. -/
def GoodFm (cur : List (String × (String × Doc))) (desired : String)
    (fm : Filemap) : Prop :=
  fm.source = some desired ∧
  (∀ k, k ∈ keysOf fm.files ↔ k ∈ keysOf cur) ∧
  (∀ kv ∈ fm.files, (alookup cur kv.1).map Prod.fst = some kv.2.hash) ∧
  keysNodup fm.files

/-! Generic lemmas about the dict model. -/

theorem alookup_isSome {β : Type} (m : List (String × β)) (q : String) :
    (alookup m q).isSome ↔ q ∈ keysOf m := by
  induction m with
  | nil => simp [alookup, keysOf]
  | cons kv rest ih =>
    obtain ⟨a, b⟩ := kv
    by_cases h : a = q
    · subst h
      simp [alookup, keysOf]
    · simp [alookup, keysOf, h, ih, Ne.symm h]

theorem alookup_eq_none {β : Type} (m : List (String × β)) (q : String) :
    alookup m q = none ↔ q ∉ keysOf m := by
  rw [← alookup_isSome]
  cases alookup m q <;> simp

theorem mem_of_alookup {β : Type} {m : List (String × β)} {q : String} {v : β}
    (h : alookup m q = some v) : (q, v) ∈ m := by
  induction m with
  | nil => simp [alookup] at h
  | cons kv rest ih =>
    obtain ⟨a, b⟩ := kv
    by_cases ha : a = q
    · subst ha
      simp [alookup] at h
      simp [h]
    · simp [alookup, ha] at h
      exact List.mem_cons_of_mem _ (ih h)

theorem alookup_of_mem_nodup {β : Type} {m : List (String × β)} {q : String} {v : β}
    (hn : keysNodup m) (h : (q, v) ∈ m) : alookup m q = some v := by
  induction m with
  | nil => simp at h
  | cons kv rest ih =>
    obtain ⟨a, b⟩ := kv
    rcases List.mem_cons.mp h with h1 | h1
    · injection h1 with e1 e2
      subst e1
      subst e2
      simp [alookup]
    · have ha : a ≠ q := by
        rintro rfl
        have hq : a ∈ List.map Prod.fst rest := List.mem_map_of_mem Prod.fst h1
        simp only [keysNodup, keysOf, List.map_cons, List.nodup_cons] at hn
        exact hn.1 hq
      have hn2 : keysNodup rest := by
        simp only [keysNodup, keysOf, List.map_cons, List.nodup_cons] at hn
        exact hn.2
      simp [alookup, ha, ih hn2 h1]

theorem keys_insRep {β : Type} (m : List (String × β)) (k : String) (v : β) :
    keysOf (insRep m k v) = if k ∈ keysOf m then keysOf m else keysOf m ++ [k] := by
  induction m with
  | nil => simp [insRep, keysOf]
  | cons kv rest ih =>
    obtain ⟨a, b⟩ := kv
    by_cases h : a = k
    · subst h
      simp [insRep, keysOf]
    · simp only [insRep, if_neg h, keysOf, List.map_cons] at ih ⊢
      by_cases hk : k ∈ List.map Prod.fst rest
      · rw [ih, if_pos hk, if_pos (List.mem_cons_of_mem a hk)]
      · have hka : k ∉ a :: List.map Prod.fst rest := by
          simp [hk, Ne.symm h]
        rw [ih, if_neg hk, if_neg hka, List.cons_append]

theorem mem_insRep_elim {β : Type} {m : List (String × β)} {k : String} {v : β}
    {x : String × β} (h : x ∈ insRep m k v) : x ∈ m ∨ x = (k, v) := by
  induction m with
  | nil => simp [insRep] at h; simp [h]
  | cons kv rest ih =>
    obtain ⟨a, b⟩ := kv
    by_cases ha : a = k
    · subst ha
      simp [insRep] at h
      rcases h with h | h
      · right; simp [h]
      · left; exact List.mem_cons_of_mem _ h
    · simp [insRep, ha] at h
      rcases h with h | h
      · left; simp [h]
      · rcases ih h with h1 | h1
        · left; exact List.mem_cons_of_mem _ h1
        · right; exact h1

theorem keysNodup_insRep {β : Type} {m : List (String × β)} (k : String) (v : β)
    (h : keysNodup m) : keysNodup (insRep m k v) := by
  unfold keysNodup
  rw [keys_insRep]
  by_cases hk : k ∈ keysOf m
  · simpa [hk] using h
  · simp only [hk, if_false]
    rw [List.nodup_append]
    exact ⟨h, List.nodup_singleton k, by simpa using hk⟩

theorem insRep_of_not_mem {β : Type} {m : List (String × β)} {k : String} (v : β)
    (h : k ∉ keysOf m) : insRep m k v = m ++ [(k, v)] := by
  induction m with
  | nil => simp [insRep]
  | cons kv rest ih =>
    obtain ⟨a, b⟩ := kv
    simp [keysOf] at h
    simp [insRep, Ne.symm h.1, ih (by simp [keysOf, h.2])]

theorem alookup_insRep_self {β : Type} (m : List (String × β)) (k : String) (v : β) :
    alookup (insRep m k v) k = some v := by
  induction m with
  | nil => simp [insRep, alookup]
  | cons kv rest ih =>
    obtain ⟨a, b⟩ := kv
    by_cases h : a = k
    · subst h
      simp [insRep, alookup]
    · simp [insRep, alookup, h, ih]

theorem alookup_insRep_ne {β : Type} (m : List (String × β)) {k q : String} (v : β)
    (h : q ≠ k) : alookup (insRep m k v) q = alookup m q := by
  induction m with
  | nil => simp [insRep, alookup, Ne.symm h]
  | cons kv rest ih =>
    obtain ⟨a, b⟩ := kv
    by_cases ha : a = k
    · subst ha
      simp [insRep, alookup, Ne.symm h]
    · by_cases hq : a = q
      · subst hq
        simp [insRep, alookup, ha]
      · simp [insRep, alookup, ha, hq, ih]

theorem foldl_insRep_mem {β : Type} {l : List (String × β)}
    {acc : List (String × β)} {x : String × β}
    (h : x ∈ l.foldl (fun m kv => insRep m kv.1 kv.2) acc) : x ∈ acc ∨ x ∈ l := by
  induction l generalizing acc with
  | nil => simp at h; exact Or.inl h
  | cons kv rest ih =>
    simp only [List.foldl_cons] at h
    rcases ih h with h1 | h1
    · rcases mem_insRep_elim h1 with h2 | h2
      · exact Or.inl h2
      · right
        simp [h2]
    · right
      exact List.mem_cons_of_mem _ h1

theorem foldl_insRep_keys_mem {β : Type} (l : List (String × β))
    (acc : List (String × β)) (q : String) :
    q ∈ keysOf (l.foldl (fun m kv => insRep m kv.1 kv.2) acc) ↔
      q ∈ keysOf acc ∨ q ∈ keysOf l := by
  induction l generalizing acc with
  | nil => simp [keysOf]
  | cons kv rest ih =>
    simp only [List.foldl_cons]
    rw [ih]
    rw [keys_insRep]
    by_cases h : kv.1 ∈ keysOf acc
    · simp only [h, if_true]
      constructor
      · rintro (h1 | h1)
        · exact Or.inl h1
        · exact Or.inr (by simp [keysOf]; right; simpa [keysOf] using h1)
      · rintro (h1 | h1)
        · exact Or.inl h1
        · simp [keysOf] at h1
          rcases h1 with h1 | h1
          · exact Or.inl (h1 ▸ h)
          · exact Or.inr (by simpa [keysOf] using h1)
    · simp only [h, if_false]
      simp [keysOf]
      tauto

theorem foldl_insRep_keysNodup {β : Type} (l : List (String × β))
    (acc : List (String × β)) (h : keysNodup acc) :
    keysNodup (l.foldl (fun m kv => insRep m kv.1 kv.2) acc) := by
  induction l generalizing acc with
  | nil => simpa using h
  | cons kv rest ih =>
    simp only [List.foldl_cons]
    exact ih _ (keysNodup_insRep _ _ h)

theorem foldl_insRep_append {β : Type} (l : List (String × β))
    (acc : List (String × β)) (hd : ∀ p ∈ keysOf l, p ∉ keysOf acc)
    (hn : (keysOf l).Nodup) :
    l.foldl (fun m kv => insRep m kv.1 kv.2) acc = acc ++ l := by
  induction l generalizing acc with
  | nil => simp
  | cons kv rest ih =>
    simp only [List.foldl_cons]
    have hcons := hn
    simp only [keysOf, List.map_cons, List.nodup_cons] at hcons
    have h1 : kv.1 ∉ keysOf acc := hd kv.1 (by simp [keysOf])
    rw [insRep_of_not_mem _ h1]
    have hd2 : ∀ p ∈ keysOf rest, p ∉ keysOf (acc ++ [kv]) := by
      intro p hp
      have hpne : p ≠ kv.1 := by
        rintro rfl
        exact hcons.1 (by simpa [keysOf] using hp)
      have hpacc : p ∉ keysOf acc := by
        refine hd p ?_
        simp only [keysOf, List.map_cons, List.mem_cons]
        right
        simpa [keysOf] using hp
      simp only [keysOf, List.map_append, List.map_cons, List.map_nil,
        List.mem_append, List.mem_singleton]
      rintro (hc | hc)
      · exact hpacc (by simpa [keysOf] using hc)
      · exact hpne hc
    rw [ih _ hd2 (by simpa [keysOf] using hcons.2)]
    simp

theorem mem_toDict_elim {β : Type} {l : List (String × β)} {x : String × β}
    (h : x ∈ toDict l) : x ∈ l := by
  rcases foldl_insRep_mem h with h1 | h1
  · simp at h1
  · exact h1

theorem keys_toDict_mem {β : Type} (l : List (String × β)) (q : String) :
    q ∈ keysOf (toDict l) ↔ q ∈ keysOf l := by
  unfold toDict
  rw [foldl_insRep_keys_mem]
  simp [keysOf]

theorem keysNodup_toDict {β : Type} (l : List (String × β)) : keysNodup (toDict l) :=
  foldl_insRep_keysNodup l [] (by simp [keysNodup, keysOf])

theorem toDict_eq_self {β : Type} {l : List (String × β)} (h : keysNodup l) :
    toDict l = l := by
  unfold toDict
  rw [foldl_insRep_append l [] (by simp [keysOf]) h]
  simp

theorem mem_dedupStr (l : List String) (a : String) : a ∈ dedupStr l ↔ a ∈ l := by
  induction l with
  | nil => simp [dedupStr]
  | cons x xs ih =>
    simp only [dedupStr, List.mem_cons, List.mem_filter]
    constructor
    · rintro (h | ⟨h1, _⟩)
      · exact Or.inl h
      · exact Or.inr (ih.mp h1)
    · rintro (h | h)
      · exact Or.inl h
      · by_cases hx : a = x
        · exact Or.inl hx
        · exact Or.inr ⟨ih.mpr h, by simp [hx]⟩

theorem nodup_dedupStr (l : List String) : (dedupStr l).Nodup := by
  induction l with
  | nil => simp [dedupStr]
  | cons x xs ih =>
    simp only [dedupStr]
    refine List.Nodup.cons ?_ (List.Nodup.filter _ ih)
    intro hx
    rcases List.mem_filter.mp hx with ⟨_, h2⟩
    simp at h2

theorem perm_insertSorted (x : String) (l : List String) :
    (insertSorted x l).Perm (x :: l) := by
  induction l with
  | nil => exact List.Perm.refl _
  | cons y ys ih =>
    by_cases h : x ≤ y
    · simp only [insertSorted, if_pos h]
      exact List.Perm.refl _
    · simp only [insertSorted, if_neg h]
      exact List.Perm.trans (List.Perm.cons y ih) (List.Perm.swap x y ys)

theorem perm_sortStrings (l : List String) : (sortStrings l).Perm l := by
  induction l with
  | nil => exact List.Perm.refl _
  | cons x xs ih =>
    simp only [sortStrings, List.foldr_cons]
    refine List.Perm.trans (perm_insertSorted x (xs.foldr insertSorted [])) ?_
    exact List.Perm.cons x (by simpa [sortStrings] using ih)

theorem mem_sortStrings (l : List String) (a : String) :
    a ∈ sortStrings l ↔ a ∈ l :=
  (perm_sortStrings l).mem_iff

theorem nodup_sortStrings {l : List String} (h : l.Nodup) :
    (sortStrings l).Nodup :=
  ((perm_sortStrings l).nodup_iff).mpr h

theorem alookup_bucketsAdd (b : List (String × List String)) (cp nid q : String) :
    alookup (bucketsAdd b cp nid) q =
      if q = cp then some ((alookup b q).getD [] ++ [nid]) else alookup b q := by
  induction b with
  | nil =>
    by_cases h : q = cp
    · subst h
      simp [bucketsAdd, alookup]
    · simp [bucketsAdd, alookup, h, Ne.symm h]
  | cons kv rest ih =>
    obtain ⟨a, l⟩ := kv
    by_cases hac : a = cp
    · subst hac
      by_cases hq : q = a
      · subst hq
        simp [bucketsAdd, alookup]
      · simp [bucketsAdd, alookup, hq, Ne.symm hq]
    · by_cases hq : a = q
      · subst hq
        simp [bucketsAdd, alookup, hac, Ne.symm hac]
      · simp [bucketsAdd, alookup, hac, hq, ih]

theorem keys_bucketsAdd (b : List (String × List String)) (cp nid : String) :
    keysOf (bucketsAdd b cp nid) =
      if cp ∈ keysOf b then keysOf b else keysOf b ++ [cp] := by
  induction b with
  | nil => simp [bucketsAdd, keysOf]
  | cons kv rest ih =>
    obtain ⟨a, l⟩ := kv
    by_cases h : a = cp
    · subst h
      simp [bucketsAdd, keysOf]
    · simp only [bucketsAdd, if_neg h, keysOf, List.map_cons] at ih ⊢
      by_cases hk : cp ∈ List.map Prod.fst rest
      · rw [ih, if_pos hk, if_pos (List.mem_cons_of_mem a hk)]
      · have hka : cp ∉ a :: List.map Prod.fst rest := by
          intro hmem
          rcases List.mem_cons.mp hmem with h1 | h1
          · exact h h1.symm
          · exact hk h1
        rw [ih, if_neg hk, if_neg hka, List.cons_append]

theorem mem_keys_bucketsAdd (b : List (String × List String)) (cp nid q : String) :
    q ∈ keysOf (bucketsAdd b cp nid) ↔ q ∈ keysOf b ∨ q = cp := by
  rw [keys_bucketsAdd]
  by_cases h : cp ∈ keysOf b
  · simp only [h, if_true]
    constructor
    · exact Or.inl
    · rintro (h1 | h1)
      · exact h1
      · exact h1 ▸ h
  · simp [h]

theorem keysNodup_bucketsAdd {b : List (String × List String)} (cp nid : String)
    (h : keysNodup b) : keysNodup (bucketsAdd b cp nid) := by
  unfold keysNodup
  rw [keys_bucketsAdd]
  by_cases hk : cp ∈ keysOf b
  · simpa [hk] using h
  · simp only [hk, if_false]
    rw [List.nodup_append]
    exact ⟨h, List.nodup_singleton cp, by simpa using hk⟩

theorem getD_alookup_bucketsAux (ns : List DsRawNode)
    (b : List (String × List String)) (q : String) (hq : q ≠ "") :
    (alookup (bucketsAux b ns) q).getD [] = (alookup b q).getD [] ++ dsContrib ns q := by
  induction ns generalizing b with
  | nil => simp [bucketsAux, dsContrib]
  | cons n ns ih =>
    cases hid : optTruthy n.id with
    | none =>
      have hstep : dsContrib (n :: ns) q = dsContrib ns q := by
        by_cases hc : dsCanon n = q
        · simp [dsContrib, List.filter_cons, hc, List.filterMap_cons, hid]
        · simp [dsContrib, List.filter_cons, hc]
      simp only [bucketsAux, hid, hstep]
      exact ih b
    | some nid =>
      by_cases hcp : dsCanon n = ""
      · have hstep : dsContrib (n :: ns) q = dsContrib ns q := by
          have hc : ¬ dsCanon n = q := by
            rw [hcp]
            exact fun e => hq e.symm
          simp [dsContrib, List.filter_cons, hc]
        have hcond : ¬ (dsCanon n ≠ "") := by simp [hcp]
        simp only [bucketsAux, hid, if_neg hcond, hstep]
        exact ih b
      · simp only [bucketsAux, hid, if_pos hcp]
        rw [ih (bucketsAdd b (dsCanon n) nid)]
        rw [alookup_bucketsAdd]
        by_cases hqc : q = dsCanon n
        · rw [if_pos hqc]
          have hcq : dsCanon n = q := hqc.symm
          have hstep : dsContrib (n :: ns) q = nid :: dsContrib ns q := by
            simp [dsContrib, List.filter_cons, hcq, List.filterMap_cons, hid]
          rw [hstep]
          simp
        · rw [if_neg hqc]
          have hstep : dsContrib (n :: ns) q = dsContrib ns q := by
            simp [dsContrib, List.filter_cons, Ne.symm hqc]
          rw [hstep]

theorem mem_keys_bucketsAux (ns : List DsRawNode)
    (b : List (String × List String)) (q : String)
    (hgood : ∀ n ∈ ns, dsCanon n ≠ "" ∧ (optTruthy n.id).isSome) :
    q ∈ keysOf (bucketsAux b ns) ↔ q ∈ keysOf b ∨ q ∈ ns.map dsCanon := by
  induction ns generalizing b with
  | nil => simp [bucketsAux]
  | cons n ns ih =>
    obtain ⟨hcp, hid⟩ := hgood n (by simp)
    obtain ⟨nid, hnid⟩ := Option.isSome_iff_exists.mp hid
    have hgood2 : ∀ m ∈ ns, dsCanon m ≠ "" ∧ (optTruthy m.id).isSome :=
      fun m hm => hgood m (List.mem_cons_of_mem _ hm)
    simp only [bucketsAux, hnid, if_pos hcp]
    rw [ih _ hgood2, mem_keys_bucketsAdd]
    simp only [List.map_cons, List.mem_cons]
    tauto

theorem keysNodup_bucketsAux (ns : List DsRawNode)
    (b : List (String × List String)) (h : keysNodup b) :
    keysNodup (bucketsAux b ns) := by
  induction ns generalizing b with
  | nil => simpa [bucketsAux] using h
  | cons n ns ih =>
    cases hid : optTruthy n.id with
    | none =>
      simp only [bucketsAux, hid]
      exact ih b h
    | some nid =>
      by_cases hcp : dsCanon n ≠ ""
      · simp only [bucketsAux, hid, if_pos hcp]
        exact ih _ (keysNodup_bucketsAdd _ _ h)
      · simp only [bucketsAux, hid, if_neg hcp]
        exact ih b h

theorem keysOf_map_val {β γ : Type} (m : List (String × β)) (f : String → β → γ) :
    keysOf (m.map (fun kv => (kv.1, f kv.1 kv.2))) = keysOf m := by
  induction m with
  | nil => rfl
  | cons kv rest ih =>
    simp only [keysOf, List.map_cons] at ih ⊢
    rw [ih]

theorem alookup_map_val {β γ : Type} (m : List (String × β)) (f : String → β → γ)
    (q : String) :
    alookup (m.map (fun kv => (kv.1, f kv.1 kv.2))) q = (alookup m q).map (f q) := by
  induction m with
  | nil => simp [alookup]
  | cons kv rest ih =>
    obtain ⟨a, b⟩ := kv
    by_cases h : a = q
    · subst h
      simp [alookup]
    · simp [alookup, h, ih]

theorem sumIds_bucketAdd (m : List (String × FileEntry)) (cp h : String)
    (nid : Option String) :
    sumIds (bucketAdd m cp h nid) = sumIds m + nid.toList.length := by
  induction m with
  | nil => simp [bucketAdd, sumIds]
  | cons kv rest ih =>
    obtain ⟨a, e⟩ := kv
    by_cases hac : a = cp
    · subst hac
      simp [bucketAdd, sumIds]
      omega
    · simp only [bucketAdd, if_neg hac, sumIds, List.map_cons, List.sum_cons] at ih ⊢
      omega

theorem sumIds_freshFilesAux (cur : List (String × (String × Doc)))
    (m : List (String × FileEntry)) (ns : List Node)
    (hgood : ∀ n ∈ ns, bucketKey n ≠ none ∧ (nodeIdOf n).isSome) :
    sumIds (freshFilesAux cur m ns) = sumIds m + ns.length := by
  induction ns generalizing m with
  | nil => simp [freshFilesAux]
  | cons n ns ih =>
    obtain ⟨hbk, hid⟩ := hgood n (by simp)
    have hgood2 : ∀ x ∈ ns, bucketKey x ≠ none ∧ (nodeIdOf x).isSome :=
      fun x hx => hgood x (List.mem_cons_of_mem _ hx)
    cases hk : bucketKey n with
    | none => exact absurd hk hbk
    | some cp =>
      simp only [freshFilesAux, hk]
      rw [ih _ hgood2, sumIds_bucketAdd]
      obtain ⟨i, hi⟩ := Option.isSome_iff_exists.mp hid
      simp [hi]
      omega

theorem bootstrapFilemap_docstore (fs : FS) (fm : Filemap)
    (curH : List (String × String)) :
    (bootstrapFilemap fs fm curH).2.docstore = fs.docstore := by
  unfold bootstrapFilemap
  repeat first
  | rfl
  | split
  | dsimp only

theorem bootstrapFilemap_sidecar (fs : FS) (fm : Filemap)
    (curH : List (String × String)) :
    (bootstrapFilemap fs fm curH).2.sidecar = fs.sidecar := by
  unfold bootstrapFilemap
  repeat first
  | rfl
  | split
  | dsimp only

theorem bootstrapFilemap_manifest (fs : FS) (fm : Filemap)
    (curH : List (String × String)) :
    (bootstrapFilemap fs fm curH).2.manifest = fs.manifest := by
  unfold bootstrapFilemap
  repeat first
  | rfl
  | split
  | dsimp only

theorem effState_sidecar (C : Collab) (docs : List Doc) (incr1 : Bool) (fs : FS) :
    (effState C docs incr1 fs).2.sidecar = fs.sidecar := by
  unfold effState
  split
  · exact bootstrapFilemap_sidecar _ _ _
  · rfl

theorem effState_docstore (C : Collab) (docs : List Doc) (incr1 : Bool) (fs : FS) :
    (effState C docs incr1 fs).2.docstore = fs.docstore := by
  unfold effState
  split
  · exact bootstrapFilemap_docstore _ _ _
  · rfl

theorem effState_manifest (C : Collab) (docs : List Doc) (incr1 : Bool) (fs : FS) :
    (effState C docs incr1 fs).2.manifest = fs.manifest := by
  unfold effState
  split
  · exact bootstrapFilemap_manifest _ _ _
  · rfl

theorem flattenIds_append (l1 l2 : List (String × FileEntry)) :
    flattenIds (l1 ++ l2) = flattenIds l1 ++ flattenIds l2 := by
  simp [flattenIds]

theorem flattenIds_filter_sublist (p : String × FileEntry → Bool)
    (files : List (String × FileEntry)) :
    (flattenIds (files.filter p)).Sublist (flattenIds files) := by
  induction files with
  | nil => simp [flattenIds]
  | cons kv rest ih =>
    by_cases h : p kv
    · simp only [List.filter_cons, h, if_pos rfl, flattenIds, List.map_cons,
        List.flatten_cons]
      exact List.Sublist.append_left ih _
    · simp only [List.filter_cons, h]
      simp only [flattenIds, List.map_cons, List.flatten_cons]
      exact List.Sublist.trans ih (List.sublist_append_right _ _)

theorem count_flattenIds_bucketAdd (m : List (String × FileEntry))
    (cp h : String) (nid : Option String) (a : String) :
    (flattenIds (bucketAdd m cp h nid)).count a =
      (flattenIds m).count a + nid.toList.count a := by
  induction m with
  | nil => simp [bucketAdd, flattenIds]
  | cons kv rest ih =>
    obtain ⟨k, e⟩ := kv
    by_cases hk : k = cp
    · subst hk
      simp [bucketAdd, flattenIds, List.count_append]
      omega
    · simp only [bucketAdd, if_neg hk, flattenIds, List.map_cons,
        List.flatten_cons, List.count_append] at ih ⊢
      omega

theorem count_flattenIds_freshFilesAux (cur : List (String × (String × Doc)))
    (m : List (String × FileEntry)) (ns : List Node) (a : String) :
    (flattenIds (freshFilesAux cur m ns)).count a =
      (flattenIds m).count a +
        ((ns.filter (fun n => decide (bucketKey n ≠ none))).filterMap nodeIdOf).count a := by
  induction ns generalizing m with
  | nil => simp [freshFilesAux]
  | cons n ns ih =>
    cases hk : bucketKey n with
    | none =>
      simp only [freshFilesAux, hk]
      rw [ih m]
      have hstep : (List.filter (fun n => decide (bucketKey n ≠ none)) (n :: ns))
          = List.filter (fun n => decide (bucketKey n ≠ none)) ns := by
        simp [List.filter_cons, hk]
      rw [hstep]
    | some cp =>
      simp only [freshFilesAux, hk]
      rw [ih _, count_flattenIds_bucketAdd]
      have hstep : (List.filter (fun n => decide (bucketKey n ≠ none)) (n :: ns))
          = n :: List.filter (fun n => decide (bucketKey n ≠ none)) ns := by
        simp [List.filter_cons, hk]
      rw [hstep, List.filterMap_cons]
      cases hid : nodeIdOf n with
      | none => simp [hid]
      | some i =>
        simp only [hid, List.count_cons, Option.toList_some, List.count_singleton]
        by_cases ha : i = a
        · subst ha
          simp
          omega
        · simp [ha]

theorem flattenIds_noopUpdate (desired : String) (curH : List (String × String))
    (fm : Filemap) :
    flattenIds (noopUpdate desired curH fm).files = flattenIds fm.files := by
  unfold noopUpdate flattenIds
  induction fm.files with
  | nil => rfl
  | cons kv rest ih =>
    simp only [List.map_cons, List.flatten_cons] at ih ⊢
    rw [ih]
    by_cases h : kv.2.hash = "" ∧ (alookup curH kv.1).isSome
    · simp [h]
    · simp [h]

theorem incrLoop_entry_mem (C : Collab) (cur : List (String × (String × Doc)))
    (ps : List String) :
    ∀ kv ∈ (incrLoop C cur ps).2.2, kv.1 ∈ ps ∧ ∃ hd,
      alookup cur kv.1 = some hd ∧
      kv.2 = { hash := hd.1, node_ids := (splitResult C hd.2).1.filterMap nodeIdOf } := by
  induction ps with
  | nil => simp [incrLoop]
  | cons p ps ih =>
    intro kv hkv
    cases hl : alookup cur p with
    | none =>
      simp only [incrLoop, hl] at hkv
      obtain ⟨h1, h2⟩ := ih kv hkv
      exact ⟨List.mem_cons_of_mem _ h1, h2⟩
    | some hd =>
      simp only [incrLoop, hl, List.mem_cons] at hkv
      rcases hkv with hkv | hkv
      · subst hkv
        exact ⟨by simp, hd, hl, rfl⟩
      · obtain ⟨h1, h2⟩ := ih kv hkv
        exact ⟨List.mem_cons_of_mem _ h1, h2⟩

theorem incrLoop_keysNodup (C : Collab) (cur : List (String × (String × Doc)))
    (ps : List String) (h : ps.Nodup) : keysNodup (incrLoop C cur ps).2.2 := by
  induction ps with
  | nil => simp [incrLoop, keysNodup, keysOf]
  | cons p ps ih =>
    obtain ⟨hp, hps⟩ := List.nodup_cons.mp h
    cases hl : alookup cur p with
    | none =>
      simp only [incrLoop, hl]
      exact ih hps
    | some hd =>
      simp only [incrLoop, hl, keysNodup, keysOf, List.map_cons, List.nodup_cons]
      refine ⟨?_, ih hps⟩
      intro hmem
      rw [List.mem_map] at hmem
      obtain ⟨kv, hkv, hfst⟩ := hmem
      have := (incrLoop_entry_mem C cur ps kv hkv).1
      exact hp (hfst ▸ this)

theorem incrLoop_mem_keys (C : Collab) (cur : List (String × (String × Doc)))
    (ps : List String) (p : String) (hp : p ∈ ps)
    (hc : (alookup cur p).isSome) :
    p ∈ keysOf (incrLoop C cur ps).2.2 := by
  induction ps with
  | nil => simp at hp
  | cons q ps ih =>
    rcases List.mem_cons.mp hp with hp1 | hp1
    · subst hp1
      obtain ⟨hd, hl⟩ := Option.isSome_iff_exists.mp hc
      simp [incrLoop, hl, keysOf]
    · cases hl : alookup cur q with
      | none =>
        simp only [incrLoop, hl]
        exact ih hp1
      | some hd =>
        simp only [incrLoop, hl, keysOf, List.map_cons, List.mem_cons]
        right
        exact ih hp1

theorem incrLoop_flattenIds (C : Collab) (cur : List (String × (String × Doc)))
    (ps : List String) :
    flattenIds (incrLoop C cur ps).2.2 = (incrLoop C cur ps).1.filterMap nodeIdOf := by
  induction ps with
  | nil => simp [incrLoop, flattenIds]
  | cons p ps ih =>
    cases hl : alookup cur p with
    | none =>
      simp only [incrLoop, hl]
      exact ih
    | some hd =>
      simp only [incrLoop, hl, flattenIds, List.map_cons, List.flatten_cons,
        List.filterMap_append]
      rw [← ih]
      rfl

theorem mem_keys_insRep {β : Type} (m : List (String × β)) (k : String) (v : β)
    (q : String) : q ∈ keysOf (insRep m k v) ↔ q ∈ keysOf m ∨ q = k := by
  rw [keys_insRep]
  by_cases h : k ∈ keysOf m
  · simp only [h, if_true]
    constructor
    · exact Or.inl
    · rintro (h1 | h1)
      · exact h1
      · exact h1 ▸ h
  · simp [h]

theorem keysOf_noopUpdate (desired : String) (curH : List (String × String))
    (fm : Filemap) :
    keysOf (noopUpdate desired curH fm).files = keysOf fm.files := by
  unfold noopUpdate keysOf
  induction fm.files with
  | nil => rfl
  | cons kv rest ih =>
    simp only [List.map_cons] at ih ⊢
    rw [ih]
    by_cases h : kv.2.hash = "" ∧ (alookup curH kv.1).isSome
    · simp [h]
    · simp [h]

theorem mem_noopUpdate (desired : String) (curH : List (String × String))
    (fm : Filemap) :
    ∀ kv ∈ (noopUpdate desired curH fm).files, ∃ kv0 ∈ fm.files,
      kv.1 = kv0.1 ∧
      (kv.2 = kv0.2 ∨
        (kv0.2.hash = "" ∧ (alookup curH kv0.1).isSome ∧
          kv.2 = { kv0.2 with hash := (alookup curH kv0.1).getD "" })) := by
  unfold noopUpdate
  intro kv hkv
  simp only [List.mem_map] at hkv
  obtain ⟨kv0, hkv0, heq⟩ := hkv
  by_cases h : kv0.2.hash = "" ∧ (alookup curH kv0.1).isSome
  · rw [if_pos h] at heq
    exact ⟨kv0, hkv0, by rw [← heq], Or.inr ⟨h.1, h.2, by rw [← heq]⟩⟩
  · rw [if_neg h] at heq
    exact ⟨kv0, hkv0, by rw [← heq], Or.inl (by rw [← heq])⟩

theorem keys_bucketAddE (m : List (String × FileEntry)) (cp h : String)
    (nid : Option String) :
    keysOf (bucketAdd m cp h nid) =
      if cp ∈ keysOf m then keysOf m else keysOf m ++ [cp] := by
  induction m with
  | nil => simp [bucketAdd, keysOf]
  | cons kv rest ih =>
    obtain ⟨a, e⟩ := kv
    by_cases hac : a = cp
    · subst hac
      simp [bucketAdd, keysOf]
    · simp only [bucketAdd, if_neg hac, keysOf, List.map_cons] at ih ⊢
      by_cases hk : cp ∈ List.map Prod.fst rest
      · rw [ih, if_pos hk, if_pos (List.mem_cons_of_mem a hk)]
      · have hka : cp ∉ a :: List.map Prod.fst rest := by
          intro hmem
          rcases List.mem_cons.mp hmem with h1 | h1
          · exact hac h1.symm
          · exact hk h1
        rw [ih, if_neg hk, if_neg hka, List.cons_append]

theorem mem_keys_bucketAddE (m : List (String × FileEntry)) (cp h : String)
    (nid : Option String) (q : String) :
    q ∈ keysOf (bucketAdd m cp h nid) ↔ q ∈ keysOf m ∨ q = cp := by
  rw [keys_bucketAddE]
  by_cases hm : cp ∈ keysOf m
  · simp only [hm, if_true]
    constructor
    · exact Or.inl
    · rintro (h1 | h1)
      · exact h1
      · exact h1 ▸ hm
  · simp [hm]

theorem keysNodup_bucketAddE {m : List (String × FileEntry)} (cp h : String)
    (nid : Option String) (hm : keysNodup m) :
    keysNodup (bucketAdd m cp h nid) := by
  unfold keysNodup
  rw [keys_bucketAddE]
  by_cases hk : cp ∈ keysOf m
  · simpa [hk] using hm
  · simp only [hk, if_false]
    rw [List.nodup_append]
    exact ⟨hm, List.nodup_singleton cp, by simpa using hk⟩

theorem hash_bucketAdd (cur : List (String × (String × Doc)))
    {m : List (String × FileEntry)} (cp : String) (nid : Option String)
    (hm : ∀ kv ∈ m, kv.2.hash = hashAt cur kv.1) :
    ∀ kv ∈ bucketAdd m cp (hashAt cur cp) nid, kv.2.hash = hashAt cur kv.1 := by
  induction m with
  | nil =>
    intro kv hkv
    simp only [bucketAdd, List.mem_singleton] at hkv
    rw [hkv]
  | cons kv0 rest ih =>
    obtain ⟨a, e⟩ := kv0
    intro kv hkv
    by_cases hac : a = cp
    · subst hac
      simp only [bucketAdd, if_pos rfl] at hkv
      rcases List.mem_cons.mp hkv with h1 | h1
      · rw [h1]
        exact hm (a, e) (by simp)
      · exact hm kv (List.mem_cons_of_mem _ h1)
    · simp only [bucketAdd, if_neg hac] at hkv
      rcases List.mem_cons.mp hkv with h1 | h1
      · rw [h1]
        exact hm (a, e) (by simp)
      · exact ih (fun x hx => hm x (List.mem_cons_of_mem _ hx)) kv h1

theorem mem_keys_freshFilesAux (cur : List (String × (String × Doc)))
    (m : List (String × FileEntry)) (ns : List Node) (k : String) :
    k ∈ keysOf (freshFilesAux cur m ns) ↔
      k ∈ keysOf m ∨ ∃ n ∈ ns, bucketKey n = some k := by
  induction ns generalizing m with
  | nil => simp [freshFilesAux]
  | cons n ns ih =>
    cases hk : bucketKey n with
    | none =>
      simp only [freshFilesAux, hk]
      rw [ih m]
      constructor
      · rintro (h | ⟨x, hx, hbk⟩)
        · exact Or.inl h
        · exact Or.inr ⟨x, List.mem_cons_of_mem _ hx, hbk⟩
      · rintro (h | ⟨x, hx, hbk⟩)
        · exact Or.inl h
        · rcases List.mem_cons.mp hx with hx1 | hx1
          · subst hx1
            rw [hk] at hbk
            simp at hbk
          · exact Or.inr ⟨x, hx1, hbk⟩
    | some cp =>
      simp only [freshFilesAux, hk]
      rw [ih _, mem_keys_bucketAddE]
      constructor
      · rintro ((h | h) | ⟨x, hx, hbk⟩)
        · exact Or.inl h
        · exact Or.inr ⟨n, by simp, by rw [hk, h]⟩
        · exact Or.inr ⟨x, List.mem_cons_of_mem _ hx, hbk⟩
      · rintro (h | ⟨x, hx, hbk⟩)
        · exact Or.inl (Or.inl h)
        · rcases List.mem_cons.mp hx with hx1 | hx1
          · subst hx1
            rw [hk] at hbk
            injection hbk with hbk
            exact Or.inl (Or.inr hbk.symm)
          · exact Or.inr ⟨x, hx1, hbk⟩

theorem keysNodup_freshFilesAux (cur : List (String × (String × Doc)))
    (m : List (String × FileEntry)) (ns : List Node) (hm : keysNodup m) :
    keysNodup (freshFilesAux cur m ns) := by
  induction ns generalizing m with
  | nil => simpa [freshFilesAux] using hm
  | cons n ns ih =>
    cases hk : bucketKey n with
    | none =>
      simp only [freshFilesAux, hk]
      exact ih m hm
    | some cp =>
      simp only [freshFilesAux, hk]
      exact ih _ (keysNodup_bucketAddE cp _ _ hm)

theorem hash_freshFilesAux (cur : List (String × (String × Doc)))
    (m : List (String × FileEntry)) (ns : List Node)
    (hm : ∀ kv ∈ m, kv.2.hash = hashAt cur kv.1) :
    ∀ kv ∈ freshFilesAux cur m ns, kv.2.hash = hashAt cur kv.1 := by
  induction ns generalizing m with
  | nil => simpa [freshFilesAux] using hm
  | cons n ns ih =>
    cases hk : bucketKey n with
    | none =>
      simp only [freshFilesAux, hk]
      exact ih m hm
    | some cp =>
      simp only [freshFilesAux, hk]
      exact ih _ (hash_bucketAdd cur cp _ hm)

theorem freshSplit_mem (C : Collab) (docs : List Doc) (n : Node) :
    n ∈ (freshSplit C docs).1 ↔ ∃ d ∈ docs, n ∈ (splitResult C d).1 := by
  induction docs with
  | nil => simp [freshSplit]
  | cons d ds ih =>
    simp only [freshSplit, List.mem_append, ih]
    constructor
    · rintro (h | ⟨x, hx, hn⟩)
      · exact ⟨d, by simp, h⟩
      · exact ⟨x, List.mem_cons_of_mem _ hx, hn⟩
    · rintro ⟨x, hx, hn⟩
      rcases List.mem_cons.mp hx with hx1 | hx1
      · subst hx1
        exact Or.inl hn
      · exact Or.inr ⟨x, hx1, hn⟩

theorem curAux_mem_keys (C : Collab) (m : List (String × (String × Doc)))
    (ds : List Doc) (k : String) :
    k ∈ keysOf (curAux C m ds) ↔ k ∈ keysOf m ∨ ∃ d ∈ ds, canonOf d = k := by
  induction ds generalizing m with
  | nil => simp [curAux]
  | cons d ds ih =>
    simp only [curAux]
    rw [ih, mem_keys_insRep]
    constructor
    · rintro ((h | h) | ⟨x, hx, hc⟩)
      · exact Or.inl h
      · exact Or.inr ⟨d, by simp, h.symm⟩
      · exact Or.inr ⟨x, List.mem_cons_of_mem _ hx, hc⟩
    · rintro (h | ⟨x, hx, hc⟩)
      · exact Or.inl (Or.inl h)
      · rcases List.mem_cons.mp hx with hx1 | hx1
        · subst hx1
          exact Or.inl (Or.inr hc.symm)
        · exact Or.inr ⟨x, hx1, hc⟩

theorem curAux_keysNodup (C : Collab) (m : List (String × (String × Doc)))
    (ds : List Doc) (hm : keysNodup m) : keysNodup (curAux C m ds) := by
  induction ds generalizing m with
  | nil => simpa [curAux] using hm
  | cons d ds ih =>
    simp only [curAux]
    exact ih _ (keysNodup_insRep _ _ hm)

theorem insRep_ne_nil {β : Type} (m : List (String × β)) (k : String) (v : β) :
    insRep m k v ≠ [] := by
  cases m with
  | nil => simp [insRep]
  | cons kv rest =>
    obtain ⟨a, b⟩ := kv
    by_cases h : a = k <;> simp [insRep, h]

theorem curAux_ne_nil (C : Collab) (m : List (String × (String × Doc)))
    (ds : List Doc) (h : m ≠ [] ∨ ds ≠ []) : curAux C m ds ≠ [] := by
  induction ds generalizing m with
  | nil =>
    rcases h with h | h
    · simpa [curAux] using h
    · simp at h
  | cons d ds ih =>
    simp only [curAux]
    exact ih _ (Or.inl (insRep_ne_nil _ _ _))

theorem alookup_curHashesOf (cur : List (String × (String × Doc))) (k : String) :
    alookup (curHashesOf cur) k = (alookup cur k).map Prod.fst := by
  unfold curHashesOf
  exact alookup_map_val cur (fun _ v => v.1) k

theorem desiredOf_ne_empty (C : Collab) (P : ProfileM) : desiredOf C P ≠ "" := by
  unfold desiredOf
  cases optTruthy P.path with
  | some p =>
    intro h
    have hl := congrArg String.length h
    rw [String.length_append] at hl
    have h6 : ("local:" : String).length = 6 := rfl
    have h0 : ("" : String).length = 0 := rfl
    rw [h6, h0] at hl
    omega
  | none =>
    cases optTruthy P.repo with
    | some r =>
      intro h
      have hl := congrArg String.length h
      rw [String.length_append, String.length_append, String.length_append] at hl
      have h7 : ("github:" : String).length = 7 := rfl
      have h0 : ("" : String).length = 0 := rfl
      rw [h7, h0] at hl
      omega
    | none =>
      intro h
      have h2 : ("unknown" : String) = "" := h
      exact absurd h2 (by decide)

theorem loadFilemap_keysNodup (o : Option Filemap) :
    keysNodup (loadFilemap o).files := by
  cases o with
  | none => simp [loadFilemap, keysNodup, keysOf]
  | some fm => exact keysNodup_toDict fm.files

theorem loadFilemap_eq_of_keysNodup (fm : Filemap) (h : keysNodup fm.files) :
    loadFilemap (some fm) = fm := by
  show ({ version := fm.version, source := fm.source, files := toDict fm.files } : Filemap) = fm
  rw [toDict_eq_self h]

theorem keysOf_bootFiles (ns : List DsRawNode) (curH : List (String × String)) :
    keysOf ((bucketsAux [] ns).map (fun kv =>
      (kv.1, ({ hash := (alookup curH kv.1).getD "", node_ids := kv.2 } : FileEntry))))
      = keysOf (bucketsAux [] ns) :=
  keysOf_map_val (bucketsAux [] ns)
    (fun k v => ({ hash := (alookup curH k).getD "", node_ids := v } : FileEntry))

theorem bootstrapFilemap_fst_keysNodup (fs : FS) (fm : Filemap)
    (curH : List (String × String)) (h : keysNodup fm.files) :
    keysNodup (bootstrapFilemap fs fm curH).1.files := by
  unfold bootstrapFilemap
  split
  · exact h
  · split
    · exact h
    · split
      · exact h
      · dsimp only
        split
        · exact h
        · unfold keysNodup
          dsimp only
          rw [keysOf_bootFiles]
          exact keysNodup_bucketsAux _ [] (by simp [keysNodup, keysOf])

theorem effState_fst_keysNodup (C : Collab) (docs : List Doc) (incr1 : Bool)
    (fs : FS) : keysNodup (effState C docs incr1 fs).1.files := by
  unfold effState
  split
  · exact bootstrapFilemap_fst_keysNodup _ _ _ (loadFilemap_keysNodup _)
  · exact loadFilemap_keysNodup _

/-! Claim theorems. -/

/-! The good-tracker invariant a successful build establishes, and that the
next incremental run recognizes as no change. -/

theorem map_eq_self_of {α : Type} (f : α → α) (l : List α)
    (h : ∀ x ∈ l, f x = x) : l.map f = l := by
  induction l with
  | nil => rfl
  | cons x xs ih =>
    rw [List.map_cons, h x (List.mem_cons_self x xs),
      ih (fun y hy => h y (List.mem_cons_of_mem _ hy))]

theorem keysNodup_filter {β : Type} (p : String × β → Bool)
    (m : List (String × β)) (h : keysNodup m) : keysNodup (m.filter p) := by
  exact List.Nodup.sublist ((List.filter_sublist m).map Prod.fst) h

theorem noopUpdate_eq_self (desired : String) (curH : List (String × String))
    (fm : Filemap) (hsrc : fm.source = some desired)
    (hh : ∀ kv ∈ fm.files, alookup curH kv.1 = some kv.2.hash) :
    noopUpdate desired curH fm = fm := by
  obtain ⟨v, s, fl⟩ := fm
  dsimp only at hsrc hh ⊢
  subst hsrc
  unfold noopUpdate
  dsimp only
  rw [map_eq_self_of _ fl ?_]
  intro kv hkv
  by_cases hc : kv.2.hash = "" ∧ (alookup curH kv.1).isSome
  · rw [if_pos hc, hh kv hkv]
    rfl
  · rw [if_neg hc]

theorem buildIndex_good (C : Collab) (P : ProfileM) (ldocs gdocs : List Doc)
    (incremental : Bool) (fs : FS) (dl : List Doc × Bool)
    (hchoose : chooseDocs P ldocs gdocs = some dl)
    (hsplit : ∀ d ∈ normChosen C dl, (splitResult C d).1 ≠ [] ∧
      ∀ n ∈ (splitResult C d).1, bucketKey n = some (canonOf d) ∧ (nodeIdOf n).isSome) :
    ∃ fm1, (buildIndex C P ldocs gdocs incremental fs).fs.filemap = some fm1 ∧
      GoodFm (curOf C (normChosen C dl)) (desiredOf C P) fm1 ∧
      (buildIndex C P ldocs gdocs incremental fs).fs.docstore.isSome = true := by
  simp only [normChosen] at hsplit ⊢
  unfold buildIndex
  rw [hchoose]
  dsimp only
  set docs := List.map (normalizeDoc C dl.2) dl.1 with hdocsdef
  set cur := curOf C docs with hcurdef
  set desired := desiredOf C P with hdesired
  set incr1 := decideIncr (loadFilemap fs.filemap) desired incremental with hincr1def
  set es := effState C docs incr1 fs with hesdef
  set dmr := diffState C docs incr1 fs with hdmrdef
  split
  case isTrue h1 =>
    obtain ⟨hi1, hds, ha, hm, hr⟩ := h1
    have hprevNodup : keysNodup es.1.files := by
      rw [hesdef]
      exact effState_fst_keysNodup C docs incr1 fs
    have hdiff : dmr = diffOf cur es.1.files := by
      rw [hdmrdef, hcurdef, hesdef]
      unfold diffState
      rw [if_pos ⟨hi1, hds⟩]
    rw [hdiff] at ha hm hr
    unfold diffOf at ha hm hr
    dsimp only at ha hm hr
    rw [List.filter_eq_nil_iff] at ha hm hr
    have hadded : ∀ k ∈ keysOf cur, k ∈ keysOf es.1.files := by
      intro k hk
      have h2 := ha k hk
      simpa using h2
    have hremoved : ∀ k ∈ keysOf es.1.files, k ∈ keysOf cur := by
      intro k hk
      have h2 := hr k hk
      simpa using h2
    have hmodeq : ∀ k ∈ keysOf cur, k ∈ keysOf es.1.files →
        (alookup cur k).map Prod.fst = (alookup es.1.files k).map FileEntry.hash := by
      intro k hk hkp
      have h2 := hm k hk
      simp only [Bool.and_eq_true, decide_eq_true_eq, not_and, not_not] at h2
      exact h2 hkp
    refine ⟨noopUpdate desired (curHashesOf cur) es.1, rfl, ⟨rfl, ?_, ?_, ?_⟩, ?_⟩
    · intro k
      rw [keysOf_noopUpdate]
      exact ⟨fun h => hremoved k h, fun h => hadded k h⟩
    · intro kv hkv
      obtain ⟨kv0, hkv0, hfsteq, hval⟩ :=
        mem_noopUpdate desired (curHashesOf cur) es.1 kv hkv
      have hk0prev : kv0.1 ∈ keysOf es.1.files := by
        simpa [keysOf] using List.mem_map_of_mem Prod.fst hkv0
      have hk0cur : kv0.1 ∈ keysOf cur := hremoved _ hk0prev
      have hlook : alookup es.1.files kv0.1 = some kv0.2 :=
        alookup_of_mem_nodup hprevNodup hkv0
      have heq := hmodeq kv0.1 hk0cur hk0prev
      rw [hlook] at heq
      rw [hfsteq]
      rcases hval with hval | hval
      · rw [hval]
        exact heq
      · obtain ⟨hh0, hsome, hval2⟩ := hval
        rw [hval2]
        show (alookup cur kv0.1).map Prod.fst
          = some ((alookup (curHashesOf cur) kv0.1).getD "")
        rw [alookup_curHashesOf, heq]
        simp
    · show (keysOf (noopUpdate desired (curHashesOf cur) es.1).files).Nodup
      rw [keysOf_noopUpdate]
      exact hprevNodup
    · show (es.2.docstore).isSome = true
      rw [hesdef, effState_docstore]
      exact hds
  case isFalse h1 =>
    split
    case isTrue h2 =>
      have hprevNodup : keysNodup es.1.files := by
        rw [hesdef]
        exact effState_fst_keysNodup C docs incr1 fs
      have hdiff : dmr = diffOf cur es.1.files := by
        rw [hdmrdef, hcurdef, hesdef]
        unfold diffState
        rw [if_pos ⟨h2.2.1, h2.1⟩]
      have hAdd : ∀ k, k ∈ dmr.1 ↔ k ∈ keysOf cur ∧ k ∉ keysOf es.1.files := by
        intro k
        rw [hdiff]
        unfold diffOf
        dsimp only
        rw [List.mem_filter]
        simp
      have hRem : ∀ k, k ∈ dmr.2.2 ↔ k ∈ keysOf es.1.files ∧ k ∉ keysOf cur := by
        intro k
        rw [hdiff]
        unfold diffOf
        dsimp only
        rw [List.mem_filter]
        simp
      have hMod : ∀ k, k ∈ dmr.2.1 ↔ k ∈ keysOf cur ∧ k ∈ keysOf es.1.files ∧
          (alookup cur k).map Prod.fst ≠ (alookup es.1.files k).map FileEntry.hash := by
        intro k
        rw [hdiff]
        unfold diffOf
        dsimp only
        rw [List.mem_filter]
        simp [and_assoc]
      set proc := sortStrings (dedupStr (dmr.1 ++ dmr.2.1)) with hprocdef
      set kept := es.1.files.filter
        (fun kv => decide (kv.1 ∉ dmr.2.2) && decide (kv.1 ∉ dmr.2.1)) with hkeptdef
      set updated := (incrLoop C cur proc).2.2 with hupdadef
      have hprocNodup : proc.Nodup := by
        rw [hprocdef]
        exact nodup_sortStrings (nodup_dedupStr _)
      have hkeptNodup : keysNodup kept := keysNodup_filter _ _ hprevNodup
      have hkeptmem : ∀ kv ∈ kept, kv ∈ es.1.files ∧ kv.1 ∉ dmr.2.2 ∧ kv.1 ∉ dmr.2.1 := by
        intro kv hkv
        rw [hkeptdef, List.mem_filter] at hkv
        obtain ⟨hin, hpred⟩ := hkv
        simp only [Bool.and_eq_true, decide_eq_true_eq] at hpred
        exact ⟨hin, hpred.1, hpred.2⟩
      have hfreshkeys : ∀ p ∈ keysOf updated, p ∉ keysOf kept := by
        intro p hp hpk
        rw [hupdadef] at hp
        rcases List.mem_map.mp hp with ⟨kv, hkv, rfl⟩
        have hmemp := (incrLoop_entry_mem C cur proc kv hkv).1
        rw [hprocdef, mem_sortStrings, mem_dedupStr, List.mem_append] at hmemp
        rcases List.mem_map.mp hpk with ⟨kv2, hkv2, hfst⟩
        obtain ⟨hkv2p, hkv2rm, hkv2m⟩ := hkeptmem kv2 hkv2
        rcases hmemp with hmem | hmem
        · have hnk := (hAdd kv.1).mp hmem
          exact hnk.2 (hfst ▸ List.mem_map_of_mem Prod.fst hkv2p)
        · exact hkv2m (hfst ▸ hmem)
      have hupdNodup : keysNodup updated := by
        rw [hupdadef]
        exact incrLoop_keysNodup C cur proc hprocNodup
      have hF : updated.foldl (fun acc kv => insRep acc kv.1 kv.2) kept
          = kept ++ updated :=
        foldl_insRep_append updated kept hfreshkeys hupdNodup
      refine ⟨_, rfl, ⟨rfl, ?_, ?_, ?_⟩, rfl⟩
      · intro k
        show k ∈ keysOf (updated.foldl (fun acc kv => insRep acc kv.1 kv.2) kept) ↔ _
        rw [foldl_insRep_keys_mem]
        constructor
        · rintro (hk | hk)
          · rcases List.mem_map.mp hk with ⟨kv2, hkv2, rfl⟩
            obtain ⟨hkv2p, hkv2rm, _⟩ := hkeptmem kv2 hkv2
            have hkp : kv2.1 ∈ keysOf es.1.files :=
              List.mem_map_of_mem Prod.fst hkv2p
            by_contra hkc
            exact hkv2rm ((hRem kv2.1).mpr ⟨hkp, hkc⟩)
          · rcases List.mem_map.mp hk with ⟨kv, hkv, rfl⟩
            obtain ⟨_, hd, hlook, _⟩ := incrLoop_entry_mem C cur proc kv hkv
            rw [← alookup_isSome]
            simp [hlook]
        · intro hk
          by_cases hkp : k ∈ keysOf es.1.files
          · by_cases hmod : k ∈ dmr.2.1
            · right
              rw [hupdadef]
              refine incrLoop_mem_keys C cur proc k ?_ ?_
              · rw [hprocdef, mem_sortStrings, mem_dedupStr, List.mem_append]
                exact Or.inr hmod
              · rw [alookup_isSome]
                exact hk
            · left
              rcases List.mem_map.mp hkp with ⟨kv0, hkv0, rfl⟩
              refine List.mem_map_of_mem Prod.fst ?_
              rw [hkeptdef, List.mem_filter]
              refine ⟨hkv0, ?_⟩
              simp only [Bool.and_eq_true, decide_eq_true_eq]
              refine ⟨?_, hmod⟩
              intro hrm
              exact ((hRem kv0.1).mp hrm).2 hk
          · right
            rw [hupdadef]
            refine incrLoop_mem_keys C cur proc k ?_ ?_
            · rw [hprocdef, mem_sortStrings, mem_dedupStr, List.mem_append]
              exact Or.inl ((hAdd k).mpr ⟨hk, hkp⟩)
            · rw [alookup_isSome]
              exact hk
      · intro kv hkv
        show (alookup cur kv.1).map Prod.fst = some kv.2.hash
        have hkv2 : kv ∈ kept ++ updated := by
          rw [← hF]
          exact hkv
        rcases List.mem_append.mp hkv2 with hin | hin
        · obtain ⟨hinp, hinrm, hinm⟩ := hkeptmem kv hin
          have hkp : kv.1 ∈ keysOf es.1.files := List.mem_map_of_mem Prod.fst hinp
          have hkc : kv.1 ∈ keysOf cur := by
            by_contra hkc
            exact hinrm ((hRem kv.1).mpr ⟨hkp, hkc⟩)
          have hlook : alookup es.1.files kv.1 = some kv.2 :=
            alookup_of_mem_nodup hprevNodup hinp
          have hne2 : ¬ ((alookup cur kv.1).map Prod.fst
              ≠ (alookup es.1.files kv.1).map FileEntry.hash) := by
            intro hcon
            exact hinm ((hMod kv.1).mpr ⟨hkc, hkp, hcon⟩)
          rw [not_not] at hne2
          rw [hne2, hlook]
          rfl
        · obtain ⟨_, hd, hlook, hval⟩ := incrLoop_entry_mem C cur proc kv hin
          rw [hlook, hval]
          rfl
      · show keysNodup (updated.foldl (fun acc kv => insRep acc kv.1 kv.2) kept)
        exact foldl_insRep_keysNodup updated kept hkeptNodup
    case isFalse h2 =>
      refine ⟨_, rfl, ⟨rfl, ?_, ?_, ?_⟩, rfl⟩
      · intro k
        show k ∈ keysOf (freshFiles cur (freshSplit C docs).1) ↔ k ∈ keysOf cur
        unfold freshFiles
        rw [mem_keys_freshFilesAux]
        constructor
        · rintro (h | ⟨n, hn, hbk⟩)
          · simp [keysOf] at h
          · rcases (freshSplit_mem C docs n).mp hn with ⟨d, hd, hnd⟩
            have hb := ((hsplit d hd).2 n hnd).1
            rw [hb] at hbk
            injection hbk with hbk
            rw [hcurdef]
            unfold curOf
            rw [curAux_mem_keys]
            exact Or.inr ⟨d, hd, hbk⟩
        · intro hk
          right
          rw [hcurdef] at hk
          unfold curOf at hk
          rw [curAux_mem_keys] at hk
          rcases hk with h | ⟨d, hd, hc⟩
          · simp [keysOf] at h
          · obtain ⟨hne, hall⟩ := hsplit d hd
            obtain ⟨n, hn⟩ := List.exists_mem_of_ne_nil _ hne
            refine ⟨n, (freshSplit_mem C docs n).mpr ⟨d, hd, hn⟩, ?_⟩
            rw [(hall n hn).1, hc]
      · intro kv hkv
        have hkv2 : kv ∈ freshFiles cur (freshSplit C docs).1 := hkv
        have hh : kv.2.hash = hashAt cur kv.1 := by
          refine hash_freshFilesAux cur [] _ ?_ kv hkv2
          intro kv0 h0
          simp at h0
        have hkk : kv.1 ∈ keysOf cur := by
          rw [hcurdef]
          unfold curOf
          rw [curAux_mem_keys]
          have hmem : kv.1 ∈ keysOf (freshFiles cur (freshSplit C docs).1) :=
            List.mem_map_of_mem Prod.fst hkv2
          unfold freshFiles at hmem
          rw [mem_keys_freshFilesAux] at hmem
          rcases hmem with h | ⟨n, hn, hbk⟩
          · simp [keysOf] at h
          · rcases (freshSplit_mem C docs n).mp hn with ⟨d, hd, hnd⟩
            have hb := ((hsplit d hd).2 n hnd).1
            rw [hb] at hbk
            injection hbk with hbk
            exact Or.inr ⟨d, hd, hbk⟩
        rw [← alookup_isSome] at hkk
        show (alookup cur kv.1).map Prod.fst = some kv.2.hash
        cases hl : alookup cur kv.1 with
        | none =>
          rw [hl] at hkk
          simp at hkk
        | some hv =>
          rw [hh]
          unfold hashAt
          rw [hl]
          rfl
      · show keysNodup (freshFiles cur (freshSplit C docs).1)
        unfold freshFiles
        refine keysNodup_freshFilesAux cur [] _ ?_
        simp [keysNodup, keysOf]

theorem buildIndex_noop_of_good (C : Collab) (P : ProfileM) (ldocs gdocs : List Doc)
    (fs : FS) (dl : List Doc × Bool) (fm1 : Filemap)
    (hchoose : chooseDocs P ldocs gdocs = some dl)
    (hne : dl.1 ≠ [])
    (hfm : fs.filemap = some fm1)
    (hds : fs.docstore.isSome = true)
    (hgood : GoodFm (curOf C (normChosen C dl)) (desiredOf C P) fm1) :
    (buildIndex C P ldocs gdocs true fs).branch = Branch.noop ∧
    (buildIndex C P ldocs gdocs true fs).insertCalls = 0 ∧
    (buildIndex C P ldocs gdocs true fs).deleteCalls = 0 ∧
    (buildIndex C P ldocs gdocs true fs).insertedNodes = [] ∧
    (buildIndex C P ldocs gdocs true fs).deletes = [] ∧
    (buildIndex C P ldocs gdocs true fs).fs.filemap = some fm1 := by
  obtain ⟨hsrc, hkeys, hhash, hnodup⟩ := hgood
  simp only [normChosen] at hkeys hhash
  unfold buildIndex
  rw [hchoose]
  dsimp only
  set docs := List.map (normalizeDoc C dl.2) dl.1 with hdocsdef
  set cur := curOf C docs with hcurdef
  set desired := desiredOf C P with hdesired
  have hlf2 : loadFilemap fs.filemap = fm1 := by
    rw [hfm]
    show { version := fm1.version, source := fm1.source,
           files := toDict fm1.files : Filemap } = fm1
    rw [toDict_eq_self hnodup]
  have hincr : decideIncr (loadFilemap fs.filemap) desired true = true := by
    unfold decideIncr
    rw [hlf2, hsrc]
    have hd : desired ≠ "" := by
      rw [hdesired]
      exact desiredOf_ne_empty C P
    simp [optTruthy, hd]
  set incr1 := decideIncr (loadFilemap fs.filemap) desired true with hincr1def
  have hi : incr1 = true := by
    rw [hincr1def]
    exact hincr
  rw [hi]
  have hcurne : cur ≠ [] := by
    rw [hcurdef]
    unfold curOf
    apply curAux_ne_nil
    right
    rw [hdocsdef]
    intro hcon
    rw [List.map_eq_nil_iff] at hcon
    exact hne hcon
  have hfm1ne : fm1.files ≠ [] := by
    cases hcc : cur with
    | nil => exact absurd hcc hcurne
    | cons kv rest =>
      intro hcon
      have hmem : kv.1 ∈ keysOf cur := by
        rw [hcc]
        exact List.mem_map_of_mem Prod.fst (List.mem_cons_self kv rest)
      have h2 := (hkeys kv.1).mpr hmem
      rw [hcon] at h2
      simp [keysOf] at h2
  have hes : effState C docs true fs = (fm1, fs) := by
    have hcond : ¬(true = true ∧ fs.docstore.isSome = true ∧
        (loadFilemap fs.filemap).files = []) := by
      intro hcon
      rw [hlf2] at hcon
      exact hfm1ne hcon.2.2
    unfold effState
    rw [if_neg hcond, hlf2]
  have hdval : diffState C docs true fs = ([], [], []) := by
    unfold diffState
    rw [if_pos ⟨rfl, hds⟩, ← hcurdef, hes]
    dsimp only
    unfold diffOf
    dsimp only
    have ha : List.filter (fun p => decide (p ∉ keysOf fm1.files)) (keysOf cur) = [] := by
      rw [List.filter_eq_nil_iff]
      intro p hp
      simp [(hkeys p).mpr hp]
    have hr : List.filter (fun p => decide (p ∉ keysOf cur)) (keysOf fm1.files) = [] := by
      rw [List.filter_eq_nil_iff]
      intro p hp
      simp [(hkeys p).mp hp]
    have hm : List.filter (fun p => decide (p ∈ keysOf fm1.files) &&
        decide ((alookup cur p).map Prod.fst ≠ (alookup fm1.files p).map FileEntry.hash))
        (keysOf cur) = [] := by
      rw [List.filter_eq_nil_iff]
      intro p hp
      have hpk : p ∈ keysOf fm1.files := (hkeys p).mpr hp
      rcases List.mem_map.mp hpk with ⟨kv, hkv, rfl⟩
      have hl : alookup fm1.files kv.1 = some kv.2 := alookup_of_mem_nodup hnodup hkv
      simp [hl, hhash kv hkv]
    rw [ha, hm, hr]
  rw [hdval, hes]
  rw [if_pos ⟨rfl, hds, rfl, rfl, rfl⟩]
  have hhh : ∀ kv ∈ fm1.files, alookup (curHashesOf cur) kv.1 = some kv.2.hash := by
    intro kv hkv
    rw [alookup_curHashesOf]
    exact hhash kv hkv
  refine ⟨rfl, rfl, rfl, rfl, rfl, ?_⟩
  show some (noopUpdate desired (curHashesOf cur) fm1) = some fm1
  rw [noopUpdate_eq_self desired (curHashesOf cur) fm1 hsrc hhh]

/-- Claim C1: the specification requires save(state) of the Fingerprint
Tracker to be atomic (write to a temporary location, then rename), so that
no observer ever sees a half-written tracker file.  _save_filemap instead
performs a single in-place write_text of filemap.json, which opens the
target file with truncation before writing: among the states observable at
the interruption points of a save there is the empty file, which is neither
the complete previous content nor the complete new content.  The trace also
contains no rename: the file is not replaced wholesale. -/
theorem save_filemap_truncates_in_place :
    "" ∈ observableStates "filemap.json" "OLD-TRACKER"
        (saveFilemapEvents "NEW-TRACKER") ∧
    "" ≠ "OLD-TRACKER" ∧ "" ≠ "NEW-TRACKER" ∧
    (∀ e ∈ saveFilemapEvents "NEW-TRACKER",
      ∀ src dst : String, e ≠ FsEvent.writeAll src dst ∨ src = "filemap.json") := by
  constructor
  · decide
  · refine ⟨by decide, by decide, ?_⟩
    intro e he src dst
    by_cases h : e = FsEvent.writeAll src dst
    · right
      revert he
      rw [h]
      intro he
      have : src = "filemap.json" := by
        simp [saveFilemapEvents] at he
        exact he.1
      exact this
    · left; exact h

/-- Claim C2: the incremental sidecar sync filters rows by the key
canonical_path-or-file_path against the canonical removed/modified path
sets, but rows written by extract_python_symbols for a local source carry
the absolute file path and no canonical_path, so a row belonging to a
removed path survives the sync: after this run src/b.py is classified
removed and dropped from the persisted tracker, yet the persisted sidecar
still contains its row — the two stores disagree about which paths are
current, contradicting the claim that every row whose path is removed or
modified is filtered out. -/
theorem sidecar_keeps_row_for_removed_local_path :
    (extractPythonSymbols pyAstT "/repo/src/b.py" "def f(): pass" = [rowB]) ∧
    (buildIndex collabC2 profT (loadFromLocal profT "/repo" treeC2) [] true fsC2).branch
        = Branch.incr ∧
    (buildIndex collabC2 profT (loadFromLocal profT "/repo" treeC2) [] true fsC2).removed
        = ["src/b.py"] ∧
    (buildIndex collabC2 profT (loadFromLocal profT "/repo" treeC2) [] true fsC2).fs.filemap
        = some { version := 1, source := some "local:/repo",
                 files := [("src/a.txt", { hash := "#alpha", node_ids := ["na"] })] } ∧
    (buildIndex collabC2 profT (loadFromLocal profT "/repo" treeC2) [] true fsC2).fs.sidecar
        = some [rowB] ∧
    rowKey rowB = some "/repo/src/b.py" := by
  decide

/-- Claim C3 counterexample: a run through the full-rebuild path that
extracts no symbol rows leaves a stale symbols.jsonl untouched while
writing symbols = 0 to the manifest, so the manifest symbol count does not
equal the number of rows in the persisted Symbol Sidecar. -/
theorem fresh_manifest_symbol_count_disagrees_with_sidecar :
    (buildIndex collabT profT ldocsT [] true
        { filemap := none, docstore := none, sidecar := some [rowB],
          manifest := none }).branch = Branch.fresh ∧
    (buildIndex collabT profT ldocsT [] true
        { filemap := none, docstore := none, sidecar := some [rowB],
          manifest := none }).manifest
      = some { documents := 2, nodes := 2, symbols := 0 } ∧
    scLen (buildIndex collabT profT ldocsT [] true
        { filemap := none, docstore := none, sidecar := some [rowB],
          manifest := none }).fs.sidecar = 1 := by
  decide

/-- Claim C9: when neither a local path nor a repository is configured
(both falsy), build_index raises before touching any persisted state: the
result is the error branch and the modelled filesystem is returned exactly
as it was. -/
theorem no_source_aborts_untouched (C : Collab) (P : ProfileM)
    (ldocs gdocs : List Doc) (incremental : Bool) (fs : FS)
    (hpath : optTruthy P.path = none) (hrepo : optTruthy P.repo = none) :
    (buildIndex C P ldocs gdocs incremental fs).branch = Branch.err ∧
    (buildIndex C P ldocs gdocs incremental fs).fs = fs := by
  have h : chooseDocs P ldocs gdocs = none := by
    unfold chooseDocs
    rw [hpath, hrepo]
  unfold buildIndex
  rw [h]
  exact ⟨rfl, rfl⟩

/-- Witness for C9 at a concrete sourceless profile and nonempty persisted
state. -/
theorem no_source_aborts_untouched_witness :
    (buildIndex collabT { profT with path := none, repo := none } [] [] true fsC2).branch
        = Branch.err ∧
    (buildIndex collabT { profT with path := none, repo := none } [] [] true fsC2).fs
        = fsC2 :=
  no_source_aborts_untouched collabT { profT with path := none, repo := none }
    [] [] true fsC2 rfl rfl

/-- Claim C6: a truthy previous source identity that differs from the one
computed for the current run bypasses the diff classification and forces a
full rebuild, regardless of any overlap in paths or hashes: no modified set
is computed, every current path is reported added, no index-store deletions
are issued, the store is created fresh from the nodes of all current
documents, and the persisted tracker is rebuilt from scratch carrying the
new identity. -/
theorem source_identity_change_forces_full_rebuild (C : Collab) (P : ProfileM)
    (ldocs gdocs : List Doc) (incremental : Bool) (fs : FS)
    (dl : List Doc × Bool) (s : String)
    (hchoose : chooseDocs P ldocs gdocs = some dl)
    (hs : optTruthy (loadFilemap fs.filemap).source = some s)
    (hne : s ≠ desiredOf C P) :
    (buildIndex C P ldocs gdocs incremental fs).branch = Branch.fresh ∧
    (buildIndex C P ldocs gdocs incremental fs).added
        = keysOf (curOf C (normChosen C dl)) ∧
    (buildIndex C P ldocs gdocs incremental fs).modified = [] ∧
    (buildIndex C P ldocs gdocs incremental fs).deletes = [] ∧
    (buildIndex C P ldocs gdocs incremental fs).deleteCalls = 0 ∧
    (buildIndex C P ldocs gdocs incremental fs).insertCalls = 0 ∧
    (buildIndex C P ldocs gdocs incremental fs).fs.docstore
        = some ((freshSplit C (normChosen C dl)).1.map toDs) ∧
    (buildIndex C P ldocs gdocs incremental fs).fs.filemap
        = some { version := 1, source := some (desiredOf C P),
                 files := freshFiles (curOf C (normChosen C dl))
                   (freshSplit C (normChosen C dl)).1 } := by
  have hincr : decideIncr (loadFilemap fs.filemap) (desiredOf C P) incremental = false := by
    unfold decideIncr
    rw [hs]
    simp [hne]
  have hred : buildIndex C P ldocs gdocs incremental fs =
      freshResult C (normChosen C dl) (curOf C (normChosen C dl)) (desiredOf C P) fs
        (keysOf (curOf C (normChosen C dl))) []
        (keysOf (loadFilemap fs.filemap).files) := by
    unfold buildIndex
    rw [hchoose]
    simp [hincr, normChosen, effState, diffState]
  rw [hred]
  exact ⟨rfl, rfl, rfl, rfl, rfl, rfl, rfl, rfl⟩

/-- Witness for C6: a previous tracker recorded under local:/other while the
current run computes local:/repo, with an overlapping path and equal hash,
still takes the fresh branch and rebuilds the tracker from scratch. -/
theorem source_identity_change_forces_full_rebuild_witness :
    optTruthy (loadFilemap fsC6.filemap).source = some "local:/other" ∧
    "local:/other" ≠ desiredOf collabT profT ∧
    (buildIndex collabT profT ldocsC2 [] true fsC6).branch = Branch.fresh ∧
    (buildIndex collabT profT ldocsC2 [] true fsC6).deletes = [] ∧
    (buildIndex collabT profT ldocsC2 [] true fsC6).fs.filemap
        = some { version := 1, source := some (desiredOf collabT profT),
                 files := freshFiles (curOf collabT (normChosen collabT (ldocsC2, true)))
                   (freshSplit collabT (normChosen collabT (ldocsC2, true))).1 } := by
  have h := source_identity_change_forces_full_rebuild collabT profT ldocsC2 [] true
    fsC6 (ldocsC2, true) "local:/other" rfl rfl (by decide)
  exact ⟨rfl, by decide, h.1, h.2.2.2.1, h.2.2.2.2.2.2.2⟩

/-- Claim C10: when docstore.json is absent from the persist directory the
run can take neither the no-op nor the incremental path, even if a previous
tracker exists and matches every current hash: every current path is
classified added, no delete calls are issued, and the persisted tracker is
the freshly built one, replacing the previous tracker wholesale. -/
theorem missing_docstore_forces_fresh_build (C : Collab) (P : ProfileM)
    (ldocs gdocs : List Doc) (incremental : Bool) (fs : FS)
    (dl : List Doc × Bool)
    (hchoose : chooseDocs P ldocs gdocs = some dl)
    (hds : fs.docstore = none) :
    (buildIndex C P ldocs gdocs incremental fs).branch = Branch.fresh ∧
    (buildIndex C P ldocs gdocs incremental fs).added
        = keysOf (curOf C (normChosen C dl)) ∧
    (buildIndex C P ldocs gdocs incremental fs).modified = [] ∧
    (buildIndex C P ldocs gdocs incremental fs).deletes = [] ∧
    (buildIndex C P ldocs gdocs incremental fs).deleteCalls = 0 ∧
    (buildIndex C P ldocs gdocs incremental fs).fs.filemap
        = some { version := 1, source := some (desiredOf C P),
                 files := freshFiles (curOf C (normChosen C dl))
                   (freshSplit C (normChosen C dl)).1 } := by
  have hex : fs.docstore.isSome = false := by rw [hds]; rfl
  have hred : buildIndex C P ldocs gdocs incremental fs =
      freshResult C (normChosen C dl) (curOf C (normChosen C dl)) (desiredOf C P) fs
        (keysOf (curOf C (normChosen C dl))) []
        (keysOf (loadFilemap fs.filemap).files) := by
    unfold buildIndex
    rw [hchoose]
    simp [hex, normChosen, effState, diffState]
  rw [hred]
  exact ⟨rfl, rfl, rfl, rfl, rfl, rfl⟩

/-- Witness for C10: a tracker matching the current corpus exactly (same
path, same hash) but no docstore.json still yields a fresh build with the
path classified added and no deletions. -/
theorem missing_docstore_forces_fresh_build_witness :
    fsC10.docstore = none ∧
    (buildIndex collabT profT ldocsC2 [] true fsC10).branch = Branch.fresh ∧
    (buildIndex collabT profT ldocsC2 [] true fsC10).added = ["src/a.txt"] ∧
    (buildIndex collabT profT ldocsC2 [] true fsC10).deletes = [] ∧
    (buildIndex collabT profT ldocsC2 [] true fsC10).fs.filemap
        = some { version := 1, source := some (desiredOf collabT profT),
                 files := freshFiles (curOf collabT (normChosen collabT (ldocsC2, true)))
                   (freshSplit collabT (normChosen collabT (ldocsC2, true))).1 } := by
  have h := missing_docstore_forces_fresh_build collabT profT ldocsC2 [] true
    fsC10 (ldocsC2, true) rfl rfl
  refine ⟨rfl, h.1, ?_, h.2.2.2.1, h.2.2.2.2.2⟩
  rw [h.2.1]
  decide

/-- Claim C8: with a populated docstore and a tracker whose files map is
empty, the bootstrap reconstructs the files map by grouping every stored
node (each carrying a truthy canonical path and id) by its canonical path:
the result has exactly one FileEntry per distinct path appearing in the
node metadata, whose node_ids are exactly the ids of that path's nodes in
store order; each entry's hash is the current content hash for the path
when known and the empty sentinel otherwise; and only the tracker is
written — docstore, sidecar and manifest are untouched. -/
theorem bootstrap_reconstructs_files_from_docstore (fs : FS) (fm : Filemap)
    (curH : List (String × String)) (ns : List DsRawNode)
    (hfm : fm.files = [])
    (hds : fs.docstore = some ns)
    (hne : ns ≠ [])
    (hgood : ∀ n ∈ ns, dsCanon n ≠ "" ∧ (optTruthy n.id).isSome) :
    (bootstrapFilemap fs fm curH).2.docstore = fs.docstore ∧
    (bootstrapFilemap fs fm curH).2.sidecar = fs.sidecar ∧
    (bootstrapFilemap fs fm curH).2.manifest = fs.manifest ∧
    (bootstrapFilemap fs fm curH).2.filemap = some (bootstrapFilemap fs fm curH).1 ∧
    keysNodup (bootstrapFilemap fs fm curH).1.files ∧
    (∀ p, p ∈ keysOf (bootstrapFilemap fs fm curH).1.files ↔ p ∈ ns.map dsCanon) ∧
    (∀ p e, alookup (bootstrapFilemap fs fm curH).1.files p = some e →
      e.hash = (alookup curH p).getD "" ∧ e.node_ids = dsContrib ns p) := by
  have hbne : bucketsAux [] ns ≠ [] := by
    have hmem0 : ∃ p, p ∈ ns.map dsCanon := by
      cases ns with
      | nil => exact absurd rfl hne
      | cons a t => exact ⟨dsCanon a, by simp⟩
    obtain ⟨p, hp⟩ := hmem0
    intro hcontra
    have hk : p ∈ keysOf (bucketsAux ([] : List (String × List String)) ns) := by
      rw [mem_keys_bucketsAux _ _ _ hgood]
      exact Or.inr hp
    rw [hcontra] at hk
    simp [keysOf] at hk
  have hred : bootstrapFilemap fs fm curH =
      (bootMapOf fm ns curH, { fs with filemap := some (bootMapOf fm ns curH) }) := by
    unfold bootstrapFilemap bootMapOf bootFilesOf
    rw [hds]
    simp [hfm, hne, hbne]
  rw [hred]
  refine ⟨rfl, rfl, rfl, rfl, ?_, ?_, ?_⟩
  · have hkk := keysOf_map_val (bucketsAux [] ns)
      (fun k v => ({ hash := (alookup curH k).getD "", node_ids := v } : FileEntry))
    unfold keysNodup bootMapOf bootFilesOf
    rw [hkk]
    exact keysNodup_bucketsAux ns [] (by simp [keysNodup, keysOf])
  · intro p
    have hkk := keysOf_map_val (bucketsAux [] ns)
      (fun k v => ({ hash := (alookup curH k).getD "", node_ids := v } : FileEntry))
    unfold bootMapOf bootFilesOf
    rw [hkk, mem_keys_bucketsAux _ _ _ hgood]
    simp [keysOf]
  · intro p e he
    unfold bootMapOf bootFilesOf at he
    rw [alookup_map_val (bucketsAux [] ns)
      (fun k v => ({ hash := (alookup curH k).getD "", node_ids := v } : FileEntry)) p] at he
    cases hb : alookup (bucketsAux [] ns) p with
    | none =>
      rw [hb] at he
      simp at he
    | some ids =>
      rw [hb] at he
      simp only [Option.map_some'] at he
      have hpmem : p ∈ ns.map dsCanon := by
        have hk : p ∈ keysOf (bucketsAux ([] : List (String × List String)) ns) := by
          rw [← alookup_isSome]
          simp [hb]
        rw [mem_keys_bucketsAux _ _ _ hgood] at hk
        rcases hk with hk | hk
        · simp [keysOf] at hk
        · exact hk
      have hpne : p ≠ "" := by
        rcases List.mem_map.mp hpmem with ⟨n, hn, rfl⟩
        exact (hgood n hn).1
      have hgd := getD_alookup_bucketsAux ns [] p hpne
      rw [hb] at hgd
      simp only [Option.getD_some, alookup, Option.getD_none, List.nil_append] at hgd
      injection he with he2
      rw [← he2]
      exact ⟨rfl, hgd⟩

/-- Witness for C8 at a concrete store holding nodes for x.py (two nodes)
and y.py (one node) and an empty tracker: the reconstructed tracker has
nodup keys, exactly the keys x.py and y.py, and the x.py entry carries the
known current hash with exactly its two node ids in store order. -/
theorem bootstrap_reconstructs_files_from_docstore_witness :
    fmC8.files = [] ∧ fsC8.docstore = some nsC8 ∧ nsC8 ≠ [] ∧
    (∀ n ∈ nsC8, dsCanon n ≠ "" ∧ (optTruthy n.id).isSome) ∧
    (bootstrapFilemap fsC8 fmC8 curHC8).2.docstore = fsC8.docstore ∧
    (bootstrapFilemap fsC8 fmC8 curHC8).2.filemap
      = some (bootstrapFilemap fsC8 fmC8 curHC8).1 ∧
    keysNodup (bootstrapFilemap fsC8 fmC8 curHC8).1.files ∧
    ("x.py" ∈ keysOf (bootstrapFilemap fsC8 fmC8 curHC8).1.files ↔
      "x.py" ∈ nsC8.map dsCanon) ∧
    ({ hash := "#x", node_ids := ["n1", "n3"] } : FileEntry).hash
        = (alookup curHC8 "x.py").getD "" ∧
    ({ hash := "#x", node_ids := ["n1", "n3"] } : FileEntry).node_ids
        = dsContrib nsC8 "x.py" := by
  have h := bootstrap_reconstructs_files_from_docstore fsC8 fmC8 curHC8 nsC8
    rfl rfl (by decide) (by decide)
  refine ⟨rfl, rfl, by decide, by decide, h.1, h.2.2.2.1, h.2.2.2.2.1,
    h.2.2.2.2.2.1 "x.py", ?_⟩
  exact h.2.2.2.2.2.2 "x.py" { hash := "#x", node_ids := ["n1", "n3"] } (by decide)

/-- Claim C7 counterexample: the remote loader applies no size ceiling.  A
reader document whose content size exceeds the configured ceiling (1025
bytes against a 1 kB ceiling) is kept by _load_from_github, and a build over
it hashes it, splits it, and gives it a FileEntry in the persisted tracker —
contradicting the claim that an oversized item is skipped regardless of
whether the source is local or remote. -/
theorem github_loader_keeps_oversized_item :
    bigText.length > profG.maxFileSizeKb * 1024 ∧
    (loadFromGithub profG [bigRawDoc]).map canonOf = ["big.py"] ∧
    (buildIndex collabT profG [] (loadFromGithub profG [bigRawDoc]) true fsEmpty).branch
        = Branch.fresh ∧
    (buildIndex collabT profG [] (loadFromGithub profG [bigRawDoc]) true fsEmpty).fs.filemap
        = some { version := 1, source := some "github:owner/repo@main",
                 files := [("big.py",
                   { hash := "#" ++ bigText, node_ids := ["n-big.py"] })] } := by
  refine ⟨by decide, rfl, rfl, rfl⟩

/-- Claim C7 amended: during local corpus loading every source item whose
size exceeds the configured ceiling is skipped — every document the local
loader produces comes from a kept file of permitted extension whose size is
within the ceiling, and a canonical path all of whose files are oversized
never appears among the loaded documents (so it is never hashed, split,
inserted or given a FileEntry, and no error is recorded).  The remote
loader applies no such ceiling (see the counterexample). -/
theorem local_loader_skips_oversized_items (P : ProfileM) (base : String)
    (tree : List (List String × List LocalFile)) :
    (∀ d ∈ loadFromLocal P base tree, ∃ parts files f,
      (parts, files) ∈ tree ∧ f ∈ files ∧
      pathSuffix f.name ∈ P.ext ∧
      f.size ≤ P.maxFileSizeKb * 1024 ∧
      d = localDocOf base parts f) ∧
    (∀ c, (∀ rt ∈ tree, ∀ f ∈ rt.2, joinParts rt.1 f.name = c →
        f.size > P.maxFileSizeKb * 1024) →
      ∀ d ∈ loadFromLocal P base tree, canonOf d ≠ c) := by
  have hmain : ∀ d ∈ loadFromLocal P base tree, ∃ parts files f,
      (parts, files) ∈ tree ∧ f ∈ files ∧
      pathSuffix f.name ∈ P.ext ∧
      f.size ≤ P.maxFileSizeKb * 1024 ∧
      d = localDocOf base parts f := by
    intro d hd
    unfold loadFromLocal at hd
    rw [List.mem_flatten] at hd
    obtain ⟨l, hl, hdl⟩ := hd
    rw [List.mem_map] at hl
    obtain ⟨rt, hrt, rfl⟩ := hl
    obtain ⟨parts, files⟩ := rt
    have hroot : d ∈ localRootDocs P base parts files := by
      cases parts with
      | nil => exact hdl
      | cons p ps =>
        by_cases hpin : p ∉ P.includeDirs
        · simp [hpin] at hdl
        · simpa [hpin] using hdl
    unfold localRootDocs at hroot
    rw [List.mem_filterMap] at hroot
    obtain ⟨f, hf, hsome⟩ := hroot
    by_cases hext : pathSuffix f.name ∉ P.ext
    · rw [if_pos hext] at hsome
      simp at hsome
    · rw [if_neg hext] at hsome
      by_cases hsize : f.size > P.maxFileSizeKb * 1024
      · rw [if_pos hsize] at hsome
        simp at hsome
      · rw [if_neg hsize] at hsome
        injection hsome with hsome
        exact ⟨parts, files, f, by simpa using hrt, hf, not_not.mp hext,
          Nat.le_of_not_lt hsize, hsome.symm⟩
  refine ⟨hmain, ?_⟩
  intro c hall d hd hcanon
  obtain ⟨parts, files, f, hrt, hf, _, hsize, rfl⟩ := hmain d hd
  have hbig : f.size > P.maxFileSizeKb * 1024 := by
    refine hall (parts, files) hrt f hf ?_
    simpa [localDocOf, canonOf] using hcanon
  exact absurd hsize (Nat.not_le_of_lt hbig)

/-- Witness for C7 amended: a kept document of the concrete corpus is traced
back to an in-ceiling file, and the canonical path of the oversized
src/big.txt (2000 bytes against the 1 kB ceiling) appears in no loaded
document. -/
theorem local_loader_skips_oversized_items_witness :
    (localDocOf "/repo" [] { name := "top.txt", size := 10, text := "hello" })
        ∈ loadFromLocal profT "/repo" treeT ∧
    (∃ parts files f, (parts, files) ∈ treeT ∧ f ∈ files ∧
      pathSuffix f.name ∈ profT.ext ∧
      f.size ≤ profT.maxFileSizeKb * 1024 ∧
      localDocOf "/repo" [] { name := "top.txt", size := 10, text := "hello" }
        = localDocOf "/repo" parts f) ∧
    (∀ d ∈ loadFromLocal profT "/repo" treeT, canonOf d ≠ "src/big.txt") := by
  refine ⟨by decide, ?_, ?_⟩
  · exact (local_loader_skips_oversized_items profT "/repo" treeT).1 _ (by decide)
  · exact (local_loader_skips_oversized_items profT "/repo" treeT).2
      "src/big.txt" (by decide)

/-- Claim C3 amended: in the incremental path the manifest counts are
derived from the persisted state — the node count is the sum of node_ids
lengths over the persisted tracker and the symbol count is the number of
persisted sidecar rows.  In the full-rebuild path the counts are the
in-memory list lengths (len of all nodes and of the extracted rows): the
node count still equals the persisted tracker sum whenever every split node
carries a truthy id and a usable path key, and the symbol count equals the
persisted sidecar rows except when no rows were extracted while a stale
sidecar file was already on disk (the fresh path neither rewrites nor
removes it — see the counterexample). -/
theorem manifest_counts_follow_branch (C : Collab) (P : ProfileM)
    (ldocs gdocs : List Doc) (incremental : Bool) (fs : FS) :
    ((buildIndex C P ldocs gdocs incremental fs).branch = Branch.incr →
      ∀ M, (buildIndex C P ldocs gdocs incremental fs).manifest = some M →
        (∀ fm, (buildIndex C P ldocs gdocs incremental fs).fs.filemap = some fm →
          M.nodes = sumIds fm.files) ∧
        M.symbols = scLen (buildIndex C P ldocs gdocs incremental fs).fs.sidecar) ∧
    ((buildIndex C P ldocs gdocs incremental fs).branch = Branch.fresh →
      ∀ M, (buildIndex C P ldocs gdocs incremental fs).manifest = some M →
        M.nodes = (buildIndex C P ldocs gdocs incremental fs).freshNodes.length ∧
        M.symbols = (buildIndex C P ldocs gdocs incremental fs).freshRows.length ∧
        ((∀ n ∈ (buildIndex C P ldocs gdocs incremental fs).freshNodes,
            bucketKey n ≠ none ∧ (nodeIdOf n).isSome) →
          ∀ fm, (buildIndex C P ldocs gdocs incremental fs).fs.filemap = some fm →
            M.nodes = sumIds fm.files) ∧
        ((buildIndex C P ldocs gdocs incremental fs).freshRows ≠ [] ∨ fs.sidecar = none →
          M.symbols = scLen (buildIndex C P ldocs gdocs incremental fs).fs.sidecar)) := by
  unfold buildIndex
  cases hch : chooseDocs P ldocs gdocs with
  | none =>
    constructor <;> intro hbr <;> simp [errResult] at hbr
  | some dl =>
    dsimp only
    split
    · constructor <;> intro hbr <;> simp [noopResult] at hbr
    · split
      · constructor
        · intro hbr M hM
          simp only [incrResult] at hM ⊢
          injection hM with hM
          constructor
          · intro fm hfm
            injection hfm with hfm
            rw [← hM, ← hfm]
          · rw [← hM]
        · intro hbr
          simp [incrResult] at hbr
      · constructor
        · intro hbr
          simp [freshResult] at hbr
        · intro hbr M hM
          simp only [freshResult] at hM ⊢
          injection hM with hM
          refine ⟨by rw [← hM], by rw [← hM], ?_, ?_⟩
          · intro hgood fm hfm
            injection hfm with hfm
            rw [← hM, ← hfm]
            have hsum := sumIds_freshFilesAux
              (curOf C (List.map (normalizeDoc C dl.2) dl.1)) []
              (freshSplit C (List.map (normalizeDoc C dl.2) dl.1)).1 hgood
            simp only [freshFiles]
            rw [hsum]
            simp [sumIds]
          · intro hcase
            rw [← hM]
            by_cases hrows : (freshSplit C (List.map (normalizeDoc C dl.2) dl.1)).2 = []
            · rcases hcase with hcase | hcase
              · exact absurd hrows hcase
              · simp only [hrows, if_pos rfl]
                rw [effState_sidecar, hcase]
                rfl
            · simp [hrows, scLen]


/-- Witness for C3 amended at the concrete incremental run of the sidecar
scenario: the manifest says one node and one symbol, which equal the sum
over the persisted tracker and the persisted sidecar row count. -/
theorem manifest_counts_follow_branch_witness :
    (buildIndex collabC2 profT ldocsC2 [] true fsC2).branch = Branch.incr ∧
    (buildIndex collabC2 profT ldocsC2 [] true fsC2).manifest
        = some { documents := 1, nodes := 1, symbols := 1 } ∧
    ({ documents := 1, nodes := 1, symbols := 1 } : ManifestM).symbols
        = scLen (buildIndex collabC2 profT ldocsC2 [] true fsC2).fs.sidecar := by
  refine ⟨by decide, by decide, ?_⟩
  exact ((manifest_counts_follow_branch collabC2 profT ldocsC2 [] true fsC2).1
    (by decide) { documents := 1, nodes := 1, symbols := 1 } (by decide)).2

/-- Claim C5: every build (no-op, incremental, or full rebuild, with the
bootstrap feeding the previous state) persists a tracker satisfying the
node-ownership partition — the union of node_ids across all FileEntry
values contains no duplicates — provided the state it builds on does: the
pre-existing (post-bootstrap) tracker satisfies the partition, the ids of
the nodes split in this run are pairwise distinct (the splitter contract),
and they are fresh with respect to the pre-existing tracker. -/
theorem tracker_node_ownership_partition (C : Collab) (P : ProfileM)
    (ldocs gdocs : List Doc) (incremental : Bool) (fs : FS) (dl : List Doc × Bool)
    (hchoose : chooseDocs P ldocs gdocs = some dl)
    (hprev : (flattenIds (effState C (normChosen C dl)
        (decideIncr (loadFilemap fs.filemap) (desiredOf C P) incremental) fs).1.files).Nodup)
    (hnew : (contribIds (buildIndex C P ldocs gdocs incremental fs)).Nodup)
    (hdisj : ∀ a ∈ contribIds (buildIndex C P ldocs gdocs incremental fs),
      a ∉ flattenIds (effState C (normChosen C dl)
        (decideIncr (loadFilemap fs.filemap) (desiredOf C P) incremental) fs).1.files) :
    ∀ fm, (buildIndex C P ldocs gdocs incremental fs).fs.filemap = some fm →
      (flattenIds fm.files).Nodup := by
  intro fm hfm
  simp only [normChosen] at hprev hdisj
  unfold buildIndex at hfm hnew hdisj
  rw [hchoose] at hfm hnew hdisj
  dsimp only at hfm hnew hdisj
  split at hfm
  case isTrue h1 =>
    simp only [noopResult] at hfm
    injection hfm with hfm
    rw [← hfm]
    rw [flattenIds_noopUpdate]
    exact hprev
  case isFalse h1 =>
    split at hfm
    case isTrue h2 =>
      rw [if_neg h1, if_pos h2] at hnew hdisj
      simp only [incrResult, contribIds] at hnew hdisj
      simp only [incrResult] at hfm
      injection hfm with hfm
      rw [← hfm]
      simp only [flattenIds]
      have hproc : (sortStrings (dedupStr
          ((diffState C (List.map (normalizeDoc C dl.2) dl.1)
            (decideIncr (loadFilemap fs.filemap) (desiredOf C P) incremental) fs).1 ++
           (diffState C (List.map (normalizeDoc C dl.2) dl.1)
            (decideIncr (loadFilemap fs.filemap) (desiredOf C P) incremental) fs).2.1))).Nodup :=
        nodup_sortStrings (nodup_dedupStr _)
      set docs := List.map (normalizeDoc C dl.2) dl.1 with hdocs
      set incr1 := decideIncr (loadFilemap fs.filemap) (desiredOf C P) incremental
        with hincr1
      set cur := curOf C docs with hcur
      set prevF := (effState C docs incr1 fs).1.files with hprevF
      set dmr := diffState C docs incr1 fs with hdmr
      set proc := sortStrings (dedupStr (dmr.1 ++ dmr.2.1)) with hprocdef
      set kept := prevF.filter
        (fun kv => decide (kv.1 ∉ dmr.2.2) && decide (kv.1 ∉ dmr.2.1)) with hkept
      set updated := (incrLoop C cur proc).2.2 with hupdated
      have hkeptsub : ∀ kv ∈ kept, kv ∈ prevF ∧ kv.1 ∉ dmr.2.1 := by
        intro kv hkv
        rw [hkept, List.mem_filter] at hkv
        refine ⟨hkv.1, ?_⟩
        have := hkv.2
        simp only [Bool.and_eq_true, decide_eq_true_eq] at this
        exact this.2
      have hdiffdef : dmr = diffOf cur prevF := by
        rw [hdmr]
        unfold diffState
        rw [if_pos ⟨h2.2.1, h2.1⟩]
      have hfreshkeys : ∀ p ∈ keysOf updated, p ∉ keysOf kept := by
        intro p hp hpk
        rw [hupdated] at hp
        rcases List.mem_map.mp hp with ⟨kv, hkv, rfl⟩
        have hmem := (incrLoop_entry_mem C cur proc kv hkv).1
        rw [hprocdef, mem_sortStrings, mem_dedupStr, List.mem_append] at hmem
        rcases List.mem_map.mp hpk with ⟨kv2, hkv2, hfst⟩
        obtain ⟨hkv2p, hkv2m⟩ := hkeptsub kv2 hkv2
        rcases hmem with hmem | hmem
        · have : kv.1 ∉ keysOf prevF := by
            rw [hdiffdef] at hmem
            simp only [diffOf, List.mem_filter, decide_eq_true_eq] at hmem
            exact hmem.2
          exact this (hfst ▸ List.mem_map_of_mem Prod.fst hkv2p)
        · exact hkv2m (hfst ▸ hmem)
      have hfiles : updated.foldl (fun acc kv => insRep acc kv.1 kv.2) kept
          = kept ++ updated := by
        refine foldl_insRep_append updated kept hfreshkeys ?_
        exact incrLoop_keysNodup C cur proc hproc
      rw [← flattenIds]
      rw [hfiles, flattenIds_append]
      have hkn : (flattenIds kept).Nodup :=
        List.Nodup.sublist (flattenIds_filter_sublist _ prevF) hprev
      have hun : (flattenIds updated).Nodup := by
        rw [hupdated, incrLoop_flattenIds]
        simpa using hnew
      refine List.Nodup.append hkn hun ?_
      intro x hxk hxu
      have hxp : x ∈ flattenIds prevF :=
        (flattenIds_filter_sublist _ prevF).subset hxk
      rw [hupdated, incrLoop_flattenIds] at hxu
      exact hdisj x (by simpa using hxu) hxp
    case isFalse h2 =>
      rw [if_neg h1, if_neg h2] at hnew hdisj
      simp only [freshResult, contribIds] at hnew hdisj
      simp only [freshResult] at hfm
      injection hfm with hfm
      rw [← hfm]
      rw [List.nodup_iff_count_le_one]
      intro x
      simp only [freshFiles]
      rw [count_flattenIds_freshFilesAux]
      simp only [flattenIds, List.map_nil, List.flatten_nil, List.count_nil,
        Nat.zero_add]
      have hnew2 := hnew
      rw [List.nodup_iff_count_le_one] at hnew2
      have := hnew2 x
      simpa using this

/-- Witness for C5 at the concrete sidecar-scenario incremental run: the
previous tracker partitions, the single inserted node id is fresh, and the
persisted tracker's flattened node_ids are duplicate-free. -/
theorem tracker_node_ownership_partition_witness :
    chooseDocs profT ldocsC2 [] = some (ldocsC2, true) ∧
    (flattenIds (effState collabC2 (normChosen collabC2 (ldocsC2, true))
        (decideIncr (loadFilemap fsC2.filemap) (desiredOf collabC2 profT) true)
        fsC2).1.files).Nodup ∧
    (contribIds (buildIndex collabC2 profT ldocsC2 [] true fsC2)).Nodup ∧
    (∀ fm, (buildIndex collabC2 profT ldocsC2 [] true fsC2).fs.filemap = some fm →
      (flattenIds fm.files).Nodup) := by
  refine ⟨rfl, by decide, by decide, ?_⟩
  exact tracker_node_ownership_partition collabC2 profT ldocsC2 [] true fsC2
    (ldocsC2, true) rfl (by decide) (by decide) (by decide)

/-- C4: running a build immediately after a successful build of the same
corpus makes the second run take the no-op path: it issues zero index store
insert and delete calls, and its persisted tracker is the first run's
tracker (the no-op rewrite only back-fills missing hashes and stamps the
source identity, and the first run left neither gap). -/
theorem second_build_is_noop (C : Collab) (P : ProfileM) (ldocs gdocs : List Doc)
    (incremental : Bool) (fs : FS) (dl : List Doc × Bool)
    (hchoose : chooseDocs P ldocs gdocs = some dl)
    (hne : dl.1 ≠ [])
    (hsplit : ∀ d ∈ normChosen C dl, (splitResult C d).1 ≠ [] ∧
      ∀ n ∈ (splitResult C d).1, bucketKey n = some (canonOf d) ∧ (nodeIdOf n).isSome) :
    (buildIndex C P ldocs gdocs true (buildIndex C P ldocs gdocs incremental fs).fs).branch
        = Branch.noop ∧
    (buildIndex C P ldocs gdocs true
        (buildIndex C P ldocs gdocs incremental fs).fs).insertCalls = 0 ∧
    (buildIndex C P ldocs gdocs true
        (buildIndex C P ldocs gdocs incremental fs).fs).deleteCalls = 0 ∧
    (buildIndex C P ldocs gdocs true
        (buildIndex C P ldocs gdocs incremental fs).fs).insertedNodes = [] ∧
    (buildIndex C P ldocs gdocs true
        (buildIndex C P ldocs gdocs incremental fs).fs).deletes = [] ∧
    (buildIndex C P ldocs gdocs true
        (buildIndex C P ldocs gdocs incremental fs).fs).fs.filemap
        = (buildIndex C P ldocs gdocs incremental fs).fs.filemap := by
  obtain ⟨fm1, hfm, hgood, hds⟩ :=
    buildIndex_good C P ldocs gdocs incremental fs dl hchoose hsplit
  obtain ⟨h1, h2, h3, h4, h5, h6⟩ := buildIndex_noop_of_good C P ldocs gdocs
    (buildIndex C P ldocs gdocs incremental fs).fs dl fm1 hchoose hne hfm hds hgood
  exact ⟨h1, h2, h3, h4, h5, by rw [h6, hfm]⟩

theorem second_build_is_noop_witness :
    chooseDocs profT ldocsT [] = some (ldocsT, true) ∧
    ldocsT ≠ [] ∧
    (∀ d ∈ normChosen collabT (ldocsT, true), (splitResult collabT d).1 ≠ [] ∧
      ∀ n ∈ (splitResult collabT d).1,
        bucketKey n = some (canonOf d) ∧ (nodeIdOf n).isSome) ∧
    (buildIndex collabT profT ldocsT [] true (buildIndex collabT profT ldocsT [] false fsEmpty).fs).branch = Branch.noop ∧
    (buildIndex collabT profT ldocsT [] true (buildIndex collabT profT ldocsT [] false fsEmpty).fs).insertCalls = 0 ∧
    (buildIndex collabT profT ldocsT [] true (buildIndex collabT profT ldocsT [] false fsEmpty).fs).deleteCalls = 0 ∧
    (buildIndex collabT profT ldocsT [] true (buildIndex collabT profT ldocsT [] false fsEmpty).fs).insertedNodes = [] ∧
    (buildIndex collabT profT ldocsT [] true (buildIndex collabT profT ldocsT [] false fsEmpty).fs).deletes = [] ∧
    (buildIndex collabT profT ldocsT [] true (buildIndex collabT profT ldocsT [] false fsEmpty).fs).fs.filemap = (buildIndex collabT profT ldocsT [] false fsEmpty).fs.filemap := by
  have h := second_build_is_noop collabT profT ldocsT [] false fsEmpty (ldocsT, true)
    rfl (by decide) (by decide)
  exact ⟨rfl, by decide, by decide, h.1, h.2.1, h.2.2.1, h.2.2.2.1, h.2.2.2.2.1,
    h.2.2.2.2.2⟩

/-- C4 counterexample: with a splitter that derives zero nodes from the
corpus's one document (which the splitter contract allows), the full
rebuild stores a tracker with no entry at all, so the immediately following
run with the unchanged corpus classifies the path as added, takes the
incremental branch, issues an index store insert call, and persists a
tracker that differs from the first run's by a whole entry, not just a
back-filled hash -- the second run is not a no-op. -/
theorem second_build_reinserts_zero_node_paths :
    (buildIndex collabC4 profT ldocsC2 [] false fsEmpty).branch = Branch.fresh ∧
    (buildIndex collabC4 profT ldocsC2 [] false fsEmpty).fs.filemap =
      some { version := 1, source := some "local:/repo", files := [] } ∧
    (buildIndex collabC4 profT ldocsC2 [] true
        (buildIndex collabC4 profT ldocsC2 [] false fsEmpty).fs).branch = Branch.incr ∧
    (buildIndex collabC4 profT ldocsC2 [] true
        (buildIndex collabC4 profT ldocsC2 [] false fsEmpty).fs).added = ["src/a.txt"] ∧
    (buildIndex collabC4 profT ldocsC2 [] true
        (buildIndex collabC4 profT ldocsC2 [] false fsEmpty).fs).insertCalls = 1 ∧
    (buildIndex collabC4 profT ldocsC2 [] true
        (buildIndex collabC4 profT ldocsC2 [] false fsEmpty).fs).fs.filemap ≠
      (buildIndex collabC4 profT ldocsC2 [] false fsEmpty).fs.filemap := by
  decide

end Ragcode
